import Mathlib

/-!
Verification of the layout-reconstruction and note-fragment-merging engine
of the Plan_Reading_Module repository.

Coordinates are modelled as rationals; Python float values that fail to
parse are modelled as missing (Option).  Each definition is a shallow
embedding of the corresponding Python function, keeping the source's
names and structure.
-/

set_option linter.unusedVariables false

/-- Axis-aligned bounding box, from tools/bbox_utils.py (class BBox).
Normalized so that x0 is at most x1 and y0 at most y1 (the reader
enforces this; the type itself does not). -/
structure BBox where
  x0 : ℚ
  y0 : ℚ
  x1 : ℚ
  y1 : ℚ
deriving DecidableEq, Repr, Inhabited

/-- Width, from BBox.w: max(0, x1 - x0). -/
def BBox.w (b : BBox) : ℚ := max 0 (b.x1 - b.x0)

/-- Height, from BBox.h: max(0, y1 - y0). -/
def BBox.h (b : BBox) : ℚ := max 0 (b.y1 - b.y0)

/-- Area, from BBox.area. -/
def BBox.area (b : BBox) : ℚ := b.w * b.h

/-- Union of two boxes, from BBox.union. -/
def BBox.union (a b : BBox) : BBox :=
  ⟨min a.x0 b.x0, min a.y0 b.y0, max a.x1 b.x1, max a.y1 b.y1⟩

/-- Intersection, from BBox.intersection: none when empty (the source
returns None when x1 <= x0 or y1 <= y0 after clipping). -/
def BBox.intersection (a b : BBox) : Option BBox :=
  let x0 := max a.x0 b.x0
  let y0 := max a.y0 b.y0
  let x1 := min a.x1 b.x1
  let y1 := min a.y1 b.y1
  if x1 ≤ x0 ∨ y1 ≤ y0 then none else some ⟨x0, y0, x1, y1⟩

/-- Vertical distance between boxes when they do not overlap vertically,
0 otherwise; from BBox.vertical_gap_to. -/
def BBox.vertical_gap_to (a b : BBox) : ℚ :=
  if b.y0 ≥ a.y1 then b.y0 - a.y1
  else if a.y0 ≥ b.y1 then a.y0 - b.y1
  else 0

/-- Rational division in a form the kernel evaluates on concrete inputs;
proved equal to ordinary division below. -/
def qdiv (a b : ℚ) : ℚ :=
  if 0 ≤ b.num then mkRat (a.num * (b.den : ℤ)) (a.den * b.num.toNat)
  else mkRat (-(a.num * (b.den : ℤ))) (a.den * (-b.num).toNat)

/-- Horizontal overlap ratio, from BBox.horizontal_overlap_ratio:
overlap width divided by max(min(widths), 1). -/
def BBox.horizontal_overlap_ratio (a b : BBox) : ℚ :=
  let overlap := max 0 (min a.x1 b.x1 - max a.x0 b.x0)
  let denom := max (min a.w b.w) 1
  qdiv overlap denom

/-- Containment ratio, from bbox_utils.overlap_ratio:
area(intersection of of_box and onto_box) / area(of_box), 0 when disjoint
or when of_box has non-positive area. -/
def overlap_ratio (of_box onto_box : BBox) : ℚ :=
  match of_box.intersection onto_box with
  | none => 0
  | some inter =>
    if of_box.area ≤ 0 then 0 else qdiv inter.area of_box.area

/-- Raw bbox encodings a chunk may carry, from the three schemas read by
bbox_utils.extract_bbox: dict bbox, list bbox, or some other value (which
falls through to the top-level scalar fields).  A missing or unparseable
numeric entry is modelled as none (the source's _to_float returns None). -/
inductive BBoxRaw where
  | dictB (x0 y0 x1 y1 : Option ℚ)
  | listB (l : List (Option ℚ))
  | otherB
deriving DecidableEq, Repr, Inhabited

/-- Parameter record written under metadata["merge_params"] by
merge_note_fragments. -/
structure MergeParams where
  max_gap : ℚ
  min_overlap : ℚ
  x_bin_tol : ℚ
  x_shift_hard : ℚ
  exclude_under_headers : Bool
  header_overlap_thresh : ℚ
deriving DecidableEq, Repr

/-- Metadata bag of a chunk: the keys read or written by the stages under
verification.  A key that is absent is modelled by its default. -/
structure Metadata where
  header_candidate : Bool := false
  merged : Bool := false
  merged_from_ids : List String := []
  merged_count : Option Nat := none
  merge_column_index : Option Nat := none
  merge_params : Option MergeParams := none
  merge_excluded_under_header : Bool := false
  merge_header_overlap_thresh : Option ℚ := none
  visual_column_index : Option Int := none
  postmerge_stitched : Bool := false
  postmerge_stitched_from_ids : List String := []
  postmerge_column_index : Option Int := none
deriving DecidableEq, Repr, Inhabited

/-- Fragment record of the stage files: the fields read or written by the
stages under verification.  Absent keys are modelled as none; the page is
modelled by its integer value (string-encoded pages compare equal to their
integer form under the source's str() comparisons). -/
structure Chunk where
  id : Option String := none
  type : Option String := none
  page : Option Int := none
  content : Option String := none
  text : Option String := none
  bbox : Option BBoxRaw := none
  x0 : Option ℚ := none
  y0 : Option ℚ := none
  x1 : Option ℚ := none
  y1 : Option ℚ := none
  visual_column_index : Option Int := none
  metadata : Option Metadata := none
deriving DecidableEq, Repr, Inhabited

/-- Normalized box from four raw values, from bbox_utils.bbox_from_xyxy
with allow_swap=True: none when any value is missing, else both
coordinate pairs are sorted. -/
def bbox_from_xyxy (a b c d : Option ℚ) : Option BBox :=
  match a, b, c, d with
  | some fx0, some fy0, some fx1, some fy1 =>
    some ⟨min fx0 fx1, min fy0 fy1, max fx0 fx1, max fy0 fy1⟩
  | _, _, _, _ => none

/-- Top-level scalar-field fallback of extract_bbox. -/
def top_level_bbox (c : Chunk) : Option BBox :=
  bbox_from_xyxy c.x0 c.y0 c.x1 c.y1

/-- Tolerant reader, from bbox_utils.extract_bbox: dict bbox, then list
bbox of length at least 4, then top-level scalar fields. -/
def extract_bbox (c : Chunk) : Option BBox :=
  match c.bbox with
  | some (.dictB a b d e) => bbox_from_xyxy a b d e
  | some (.listB (a :: b :: d :: e :: _)) => bbox_from_xyxy a b d e
  | some (.listB _) => top_level_bbox c
  | some .otherB => top_level_bbox c
  | none => top_level_bbox c

/-- Canonical writer, from bbox_utils.write_bbox with bbox_format="dict"
and sync_top_level=True: stores the dict encoding and mirrors the four
top-level scalar fields. -/
def write_bbox (c : Chunk) (b : BBox) : Chunk :=
  { c with
    bbox := some (.dictB (some b.x0) (some b.y0) (some b.x1) (some b.y1)),
    x0 := some b.x0, y0 := some b.y0, x1 := some b.x1, y1 := some b.y1 }

/-! Header classification, from tools/tag_header_candidates.py.  The
regular expressions are embedded as explicit word-boundary matchers over
character lists; matching is case-insensitive exactly where the source
passes re.IGNORECASE. -/

/-- Python str.strip / regex whitespace class over ASCII. -/
def pySpace (c : Char) : Bool :=
  c = ' ' || c = '\t' || c = '\n' || c = '\r' || c = '\x0B' || c = '\x0C'

/-- Drop leading and trailing characters satisfying p, as Python strip. -/
def stripList (p : Char → Bool) (cs : List Char) : List Char :=
  ((cs.dropWhile p).reverse.dropWhile p).reverse

/-- Collapse every maximal whitespace run to a single space, as
re.sub of a whitespace run with a single space.  The Boolean argument
records whether the previous character was whitespace (run already
replaced). -/
def collapseAux : Bool → List Char → List Char
  | _, [] => []
  | inRun, c :: rest =>
    if pySpace c then
      if inRun then collapseAux true rest else ' ' :: collapseAux true rest
    else c :: collapseAux false rest

/-- Collapse whitespace runs, starting outside a run. -/
def collapse (cs : List Char) : List Char := collapseAux false cs

/-- From tag_header_candidates.normalize_spaces: strip, then collapse
whitespace runs to single spaces. -/
def normalize_spaces (s : String) : String :=
  String.mk (collapse (stripList pySpace s.data))

/-- Regex word character (ASCII fragment of Python re's w class). -/
def isWordChar (c : Char) : Bool := c.isAlphanum || c = '_'

/-- Whether position i of cs holds a word character. -/
def wordAt (cs : List Char) (i : Nat) : Bool :=
  match cs.get? i with
  | some c => isWordChar c
  | none => false

/-- Regex word boundary at position p (between p-1 and p). -/
def boundaryAt (cs : List Char) (p : Nat) : Bool :=
  (decide (0 < p) && wordAt cs (p - 1)) != wordAt cs p

/-- Case-insensitive comparison of two characters. -/
def upperEq (a b : Char) : Bool := a.toUpper = b.toUpper

/-- Case-insensitive literal match of lit inside cs starting at p. -/
def litAtCI : List Char → List Char → Nat → Bool
  | [], _, _ => true
  | c :: rest, cs, p =>
    (match cs.get? p with
     | some d => upperEq c d
     | none => false) && litAtCI rest cs (p + 1)

/-- Case-insensitive whole-word search: the literal occurs with a word
boundary on each side, as a regex search of the literal between
word-boundary anchors with re.IGNORECASE. -/
def searchWordCI (w : List Char) (cs : List Char) : Bool :=
  (List.range (cs.length + 1)).any fun p =>
    boundaryAt cs p && litAtCI w cs p && boundaryAt cs (p + w.length)

/-- From NOTES_RE: whole-word, case-insensitive search for NOTES. -/
def notes_re_search (s : String) : Bool :=
  searchWordCI "NOTES".data s.data

/-- From BAD_CONTEXT_RE: whole-word search for SEE or for REFER TO. -/
def bad_context_search (s : String) : Bool :=
  searchWordCI "SEE".data s.data || searchWordCI "REFER TO".data s.data

/-- From CONT_RE at one position: CONT optionally followed by one of the
suffix alternatives, each side anchored by a word boundary. -/
def cont_re_at (cs : List Char) (p : Nat) : Bool :=
  boundaryAt cs p && litAtCI "CONT".data cs p &&
    (boundaryAt cs (p + 4) ||
     (litAtCI "'D".data cs (p + 4) && boundaryAt cs (p + 6)) ||
     (litAtCI "INUED".data cs (p + 4) && boundaryAt cs (p + 9)) ||
     (litAtCI ".".data cs (p + 4) && boundaryAt cs (p + 5)) ||
     (litAtCI "’D".data cs (p + 4) && boundaryAt cs (p + 6)))

/-- From CONT_RE: search anywhere in the string. -/
def cont_re_search (s : String) : Bool :=
  (List.range (s.data.length + 1)).any (cont_re_at s.data)

/-- From tag_header_candidates.uppercase_ratio: uppercase letters over
all letters, 0 when there are no letters. -/
def uppercase_ratio (s : String) : ℚ :=
  let letters := s.data.filter Char.isAlpha
  if letters.isEmpty then 0
  else mkRat (letters.filter Char.isUpper).length letters.length

/-- Number of maximal non-whitespace runs; the Boolean argument records
whether we are inside a word.  This is the length of a Python
no-argument str.split, which drops empty fields. -/
def countWordsAux : Bool → List Char → Nat
  | _, [] => 0
  | inWord, c :: rest =>
    if pySpace c then countWordsAux false rest
    else if inWord then countWordsAux true rest
    else 1 + countWordsAux true rest

/-- Word count of the normalized text, from len(s0.split()). -/
def word_count (s : String) : Nat := countWordsAux false s.data

/-- Python str.rstrip of spaces and colons. -/
def rstrip_colon_space (s : String) : String :=
  String.mk ((s.data.reverse.dropWhile fun c => c = ' ' || c = ':').reverse)

/-- Python str.upper over ASCII. -/
def py_upper (s : String) : String := String.mk (s.data.map Char.toUpper)

/-- Character class of HEADER_SHAPE_RE: uppercase letters, digits,
whitespace, and the small punctuation set. -/
def header_shape_char (c : Char) : Bool :=
  ('A' ≤ c && c ≤ 'Z') || ('0' ≤ c && c ≤ '9') || pySpace c ||
  c = '/' || c = '&' || c = '\'' || c = '’' || c = '-' ||
  c = '(' || c = ')' || c = ',' || c = '.' || c = ':'

/-- Anchored match of HEADER_SHAPE_RE: non-empty and every character in
the class. -/
def header_shape_match (s : String) : Bool :=
  !s.data.isEmpty && s.data.all header_shape_char

/-- Python endswith of a period. -/
def ends_with_period (s : String) : Bool := s.data.getLast? == some '.'

/-- From tag_header_candidates.is_header_candidate, with the source's
check order: empty, keyword, see/refer-to, sentence-like parenthetical,
uppercase ratio, word count, character whitelist. -/
def is_header_candidate (text : String) : Bool :=
  let s0 := normalize_spaces text
  if s0 = "" then false
  else if !notes_re_search s0 then false
  else if bad_context_search s0 && !cont_re_search s0 then false
  else if ends_with_period s0 && s0.data.contains '(' && !cont_re_search s0 then false
  else if uppercase_ratio s0 < mkRat 4 5 then false
  else if word_count s0 < 2 || 14 < word_count s0 then false
  else if !header_shape_match (py_upper (rstrip_colon_space s0)) then false
  else true

/-- Spec-side definition for claim C5: the five-condition conjunction as
the spec states it (keyword present; no see/refer-to unless continuation;
uppercase ratio at least 0.80; word count 2 to 14; whitelist after
stripping the trailing colon), built from the same matcher primitives as
the code. -/
def headerFiveConditions (text : String) : Bool :=
  let s0 := normalize_spaces text
  notes_re_search s0 &&
  !(bad_context_search s0 && !cont_re_search s0) &&
  decide (mkRat 4 5 ≤ uppercase_ratio s0) &&
  decide (2 ≤ word_count s0) && decide (word_count s0 ≤ 14) &&
  header_shape_match (py_upper (rstrip_colon_space s0))

/-- The sixth condition the source applies and the spec omits: reject a
sentence-like text ending in a period that contains an opening
parenthesis, unless a continuation marker is present. -/
def sentence_like_reject (text : String) : Bool :=
  let s0 := normalize_spaces text
  ends_with_period s0 && s0.data.contains '(' && !cont_re_search s0

/-! Stage output writing, modelled as traces of file-system operations. -/

/-- File-system operations a stage writer performs. -/
inductive FsOp where
  | mkdirParent (ofPath : String)
  | writeFile (path : String)
  | rename (src dst : String)
deriving DecidableEq, Repr

/-- From tag_header_candidates.save_json: makedirs then a direct open and
json.dump onto the output path. -/
def save_json_trace (path : String) : List FsOp :=
  [.mkdirParent path, .writeFile path]

/-- From split_banner_headers._write_json: mkdir of the parent then a
direct write_text onto the output path. -/
def split_banner_write_json_trace (path : String) : List FsOp :=
  [.mkdirParent path, .writeFile path]

/-- From merge_note_fragments._atomic_write_json (and the identical
helper in tighten_group_bboxes): mkdir, write the .tmp sibling, then
rename it onto the output path. -/
def atomic_write_json_trace (path : String) : List FsOp :=
  [.mkdirParent path, .writeFile (path ++ ".tmp"), .rename (path ++ ".tmp") path]

/-- From fix_split_notes_postmerge.main: mkdir of the parent then a
direct write_text onto the output path. -/
def stitch_write_trace (path : String) : List FsOp :=
  [.mkdirParent path, .writeFile path]

/-- A trace contains a direct write of the given path. -/
def writes_directly (t : List FsOp) (out : String) : Bool :=
  t.any fun op =>
    match op with
    | .writeFile p => p == out
    | _ => false

/-- A trace renames some file onto the given path. -/
def renames_onto (t : List FsOp) (out : String) : Bool :=
  t.any fun op =>
    match op with
    | .rename _ d => d == out
    | _ => false

/-- Temp-file-then-rename discipline: the output path is produced by a
rename and is never the target of a direct write. -/
def atomic_write_to (t : List FsOp) (out : String) : Bool :=
  renames_onto t out && !writes_directly t out

/-! Stage validation, from tools/validate_stage_json.py. -/

/-- Python str() of a possibly missing id (str(None) prints None). -/
def idStr (c : Chunk) : String :=
  match c.id with
  | some s => s
  | none => "None"

/-- Python str() of a possibly missing type. -/
def typeRawStr (c : Chunk) : String :=
  match c.type with
  | some s => s
  | none => "None"

/-- Page filter of validate_stage: str(ch.get(page)) == str(page);
string-encoded pages compare equal to their integer form, and a missing
page never matches. -/
def page_matches (c : Chunk) (target : Int) : Bool := c.page == some target

/-- Validation failures, from the ValueError messages of validate_stage;
each carries the offending fragment's id (and type) as the messages do. -/
inductive ValError where
  | missingId
  | missingType (id : String)
  | missingBBox (id : String) (type : String)
  | nonDictBBox (id : String) (type : String)
  | degenerateBBox (id : String) (type : String) (box : BBox)
deriving DecidableEq, Repr

/-- Whether the stored bbox uses the canonical dict encoding. -/
def has_dict_bbox (c : Chunk) : Bool :=
  match c.bbox with
  | some (.dictB _ _ _ _) => true
  | _ => false

/-- Counters returned by validate_stage on success. -/
structure ValidationStats where
  total_chunks : Nat := 0
  validated_chunks : Nat := 0
deriving DecidableEq, Repr

/-- Checks applied to one validated chunk, in source order: id present,
type present, bbox parseable, dict bbox when required, positive width and
height. -/
def validate_chunk (require_bbox_dict : Bool) (c : Chunk) : Option ValError :=
  if c.id.isNone then some .missingId
  else if c.type.isNone then some (.missingType (idStr c))
  else
    match extract_bbox c with
    | none => some (.missingBBox (idStr c) (typeRawStr c))
    | some box =>
      if require_bbox_dict && !has_dict_bbox c then
        some (.nonDictBBox (idStr c) (typeRawStr c))
      else if box.w ≤ 0 ∨ box.h ≤ 0 then
        some (.degenerateBBox (idStr c) (typeRawStr c) box)
      else none

/-- The chunk loop of validate_stage: skip chunks off the target page,
raise the first validation error, count validated chunks. -/
def validate_loop (page : Option Int) (require_bbox_dict : Bool) :
    List Chunk → ValidationStats → Except ValError ValidationStats
  | [], st => .ok st
  | c :: rest, st =>
    if page.all (fun p => !page_matches c p) && page.isSome then
      validate_loop page require_bbox_dict rest st
    else
      match validate_chunk require_bbox_dict c with
      | some e => .error e
      | none =>
        validate_loop page require_bbox_dict rest
          { st with validated_chunks := st.validated_chunks + 1 }

/-- From validate_stage_json.validate_stage restricted to the chunk list
(the file-existence and JSON-root checks precede this in the source). -/
def validate_stage (chunks : List Chunk) (page : Option Int)
    (require_bbox_dict : Bool) : Except ValError ValidationStats :=
  validate_loop page require_bbox_dict chunks { total_chunks := chunks.length }

/-- Concrete fragment with the swapped list bbox [10, 10, 5, 5] of the
spec's example scenario. -/
def swappedChunk : Chunk :=
  { id := some "a1", type := some "text_line", page := some 3,
    bbox := some (.listB [some 10, some 10, some 5, some 5]) }

/-- Concrete fragment with the zero-width dict bbox (10, 10, 10, 20) of
the spec's example scenario. -/
def zeroWidthChunk : Chunk :=
  { id := some "f1", type := some "text_line", page := some 3,
    bbox := some (.dictB (some 10) (some 10) (some 10) (some 20)) }

/-! Fragment merging, from tools/merge_note_fragments.py. -/

/-- Conservative merge set, from MERGE_TYPES. -/
def MERGE_TYPES : List String := ["note_group"]

/-- ASCII lowercasing, as Python str.lower on the type strings used here. -/
def py_lower (s : String) : String := String.mk (s.data.map Char.toLower)

/-- Lowercased type with empty default, from str(ch.get(type, )).lower(). -/
def type_str (c : Chunk) : String := py_lower (c.type.getD "")

/-- Python abs on rationals. -/
def qabs (a : ℚ) : ℚ := if a < 0 then -a else a

/-- From merge_note_fragments._is_header: explicit header type or the
header_candidate metadata flag. -/
def _is_header (c : Chunk) : Bool :=
  type_str c == "header" ||
    (match c.metadata with
     | some m => m.header_candidate
     | none => false)

/-- Candidate item: original chunk index, the chunk, its parsed box. -/
structure MergeItem where
  idx : Nat
  ch : Chunk
  box : BBox
deriving DecidableEq, Repr, Inhabited

/-- Cluster state of _cluster_by_x0: running mean rep, member item
indices, and the member x0 values. -/
structure X0Cluster where
  rep : ℚ
  members : List Nat
  xs : List ℚ
deriving DecidableEq, Repr, Inhabited

/-- Mean of a list of rationals, from sum(xs) / len(xs). -/
def mean_of (xs : List ℚ) : ℚ := qdiv xs.sum (xs.length : ℚ)

/-- One step of the greedy x0 clustering loop: join the last cluster when
within tolerance of its running mean, else open a new cluster. -/
def x0_step (x_bin_tol : ℚ) (clusters : List X0Cluster) (pt : Nat × ℚ) :
    List X0Cluster :=
  match clusters.getLast? with
  | none => clusters ++ [⟨pt.2, [pt.1], [pt.2]⟩]
  | some last =>
    if qabs (pt.2 - last.rep) ≤ x_bin_tol then
      clusters.dropLast ++
        [⟨mean_of (last.xs ++ [pt.2]), last.members ++ [pt.1], last.xs ++ [pt.2]⟩]
    else clusters ++ [⟨pt.2, [pt.1], [pt.2]⟩]

/-- From merge_note_fragments._cluster_by_x0: sort the (index, x0) pairs
by x0, fold the greedy clustering step, sort clusters by their running
mean, and assign 0-based column indices to each member. -/
def _cluster_by_x0 (items : List MergeItem) (x_bin_tol : ℚ) : List (Nat × Nat) :=
  let xs := (items.map fun it => (it.idx, it.box.x0)).mergeSort
    (fun p q => decide (p.2 ≤ q.2))
  let clusters := xs.foldl (x0_step x_bin_tol) []
  let sorted := clusters.mergeSort (fun c d => decide (c.rep ≤ d.rep))
  sorted.enum.flatMap fun p => p.2.members.map fun i => (i, p.1)

/-- Column lookup with default 0, from col_map.get(idx, 0). -/
def col_of (m : List (Nat × Nat)) (i : Nat) : Nat := (m.lookup i).getD 0

/-- From merge_note_fragments._has_header_between with its default
min_h_overlap of 0.10: some header lies entirely in the vertical gap
between a (above) and b (below) and overlaps both horizontally. -/
def _has_header_between (headers : List BBox) (a b : BBox) : Bool :=
  if b.y0 < a.y1 then false
  else headers.any fun hb =>
    decide (hb.y0 ≥ a.y1) && decide (hb.y1 ≤ b.y0) &&
    decide (hb.horizontal_overlap_ratio a ≥ mkRat 1 10) &&
    decide (hb.horizontal_overlap_ratio b ≥ mkRat 1 10)

/-- Python str.strip of whitespace. -/
def py_strip (s : String) : String := String.mk (stripList pySpace s.data)

/-- From merge_note_fragments._merge_text: strip parts, keep the
non-empty ones, join with newlines. -/
def _merge_text (parts : List String) : String :=
  String.intercalate "\n" ((parts.map py_strip).filter (fun x => x ≠ ""))

/-- Python truthiness choice content or text or empty, from the source's
g_ch.get(content) or g_ch.get(text) or the empty string. -/
def chunk_text (c : Chunk) : String :=
  match c.content with
  | some s => if s = "" then c.text.getD "" else s
  | none => c.text.getD ""

/-- Counters of the MergeStats dataclass. -/
structure MergeStats where
  candidates : Nat := 0
  excluded_under_headers : Nat := 0
  merged_groups : Nat := 0
  merged_chunks_removed : Nat := 0
deriving DecidableEq, Repr

/-- Header boxes on the target page, from the first collection loop. -/
def header_boxes_of (chunks : List Chunk) (target : Int) : List BBox :=
  chunks.filterMap fun c =>
    if page_matches c target && _is_header c then extract_bbox c else none

/-- Merge candidates, from the second collection loop: on the target
page, not a header, type in the merge set, bbox parseable; the index is
the chunk's position in the input list. -/
def cand_fn (mergeTypes : List String) (target : Int)
    (ic : Nat × Chunk) : Option MergeItem :=
  if page_matches ic.2 target && !_is_header ic.2 &&
      mergeTypes.contains (type_str ic.2) then
    (extract_bbox ic.2).map fun b => ⟨ic.1, ic.2, b⟩
  else none

def merge_candidates (mergeTypes : List String) (chunks : List Chunk)
    (target : Int) : List MergeItem :=
  chunks.enum.filterMap (cand_fn mergeTypes target)

/-- Exclusion test of the pre-pass: exclusion enabled, headers present,
and the candidate overlaps some header at or above the threshold. -/
def excluded_pred (p : MergeParams) (headers : List BBox) (it : MergeItem) : Bool :=
  p.exclude_under_headers && !headers.isEmpty &&
    headers.any fun hb => decide (overlap_ratio it.box hb ≥ p.header_overlap_thresh)

/-- In-place update applied to an excluded candidate: tag the metadata
and normalize the bbox schema. -/
def excluded_update (p : MergeParams) (it : MergeItem) : Chunk :=
  let md := it.ch.metadata.getD ({} : Metadata)
  write_bbox
    { it.ch with metadata := some ({ md with
        merge_excluded_under_header := true,
        merge_header_overlap_thresh := some p.header_overlap_thresh }) }
    it.box

/-- Merge gates of the inner while loop, against the running group box:
vertical gap, horizontal overlap, hard x-shift, and the header barrier.
True means the candidate joins the group; false is the source's break. -/
def merge_gates (p : MergeParams) (headers : List BBox) (group_box : BBox)
    (n : MergeItem) : Bool :=
  !decide (group_box.vertical_gap_to n.box > p.max_gap) &&
  !decide (group_box.horizontal_overlap_ratio n.box < p.min_overlap) &&
  !decide (qabs (n.box.x0 - group_box.x0) > p.x_shift_hard) &&
  !(!headers.isEmpty && _has_header_between headers group_box n.box)

/-- One step of the per-column walk: extend the open group while the
gates pass, else flush it and open a new group at the failing item; the
first item of a column always opens a group. -/
def group_step (p : MergeParams) (headers : List BBox)
    (st : List (List MergeItem × BBox) × Option (List MergeItem × BBox))
    (n : MergeItem) :
    List (List MergeItem × BBox) × Option (List MergeItem × BBox) :=
  match st.2 with
  | none => (st.1, some ([n], n.box))
  | some g =>
    if merge_gates p headers g.2 n then
      (st.1, some (g.1 ++ [n], g.2.union n.box))
    else (st.1 ++ [g], some ([n], n.box))

/-- Greedy grouping of one column's sorted items, from the nested while
loops of merge_note_fragments. -/
def form_groups (p : MergeParams) (headers : List BBox)
    (items : List MergeItem) : List (List MergeItem × BBox) :=
  match items.foldl (group_step p headers) ([], none) with
  | (done, none) => done
  | (done, some g) => done ++ [g]

/-- Sort key (y0, x0, original index) of the per-column sort. -/
def item_le (a b : MergeItem) : Bool :=
  decide (a.box.y0 < b.box.y0) ||
  (decide (a.box.y0 = b.box.y0) &&
    (decide (a.box.x0 < b.box.x0) ||
     (decide (a.box.x0 = b.box.x0) && decide (a.idx ≤ b.idx))))

/-- In-place update applied to a group's representative chunk: a single
item only has its bbox schema normalized, a real group gets the merged
text, the union bbox, promotion to note_group, and the merge metadata. -/
def group_update (p : MergeParams) (col_idx : Nat)
    (g : List MergeItem × BBox) : Nat × Chunk :=
  match g.1 with
  | [] => (0, default)
  | rep :: rest =>
    if rest.isEmpty then
      (rep.idx, write_bbox rep.ch rep.box)
    else
      let ids := (rep :: rest).map fun it => idStr it.ch
      let merged_text := _merge_text ((rep :: rest).map fun it => chunk_text it.ch)
      let c := write_bbox
        { rep.ch with type := some "note_group",
                      content := some merged_text, text := some merged_text } g.2
      let md := c.metadata.getD ({} : Metadata)
      (rep.idx, { c with metadata := some ({ md with
        merged := true, merged_from_ids := ids,
        merged_count := some (rep :: rest).length,
        merge_column_index := some col_idx,
        merge_params := some p }) })

/-- Ids of the group members absorbed into the representative (removed
from the output), from the skip_ids set. -/
def group_skips (g : List MergeItem × BBox) : List String :=
  match g.1 with
  | [] => []
  | _ :: rest => if rest.isEmpty then [] else rest.map fun it => idStr it.ch

/-- Column-wise grouping of the mergeable items: cluster by x0, iterate
columns in sorted key order, sort each column by (y0, x0, index), and
form the greedy groups; each group is tagged with its column index. -/
def merge_colGroups (p : MergeParams) (headers : List BBox)
    (mergeable : List MergeItem) : List (Nat × (List MergeItem × BBox)) :=
  let cmap := _cluster_by_x0 mergeable p.x_bin_tol
  let keys := ((mergeable.map fun it => col_of cmap it.idx).dedup).mergeSort
    (fun a b => decide (a ≤ b))
  keys.flatMap fun k =>
    (form_groups p headers
      ((mergeable.filter fun it => col_of cmap it.idx == k).mergeSort item_le)).map
      fun g => (k, g)

/-- The excluded candidates of the pre-pass. -/
def merge_excluded (p : MergeParams) (headers : List BBox)
    (candidates : List MergeItem) : List MergeItem :=
  candidates.filter (excluded_pred p headers)

/-- The candidates that stay mergeable after the pre-pass. -/
def merge_mergeable (p : MergeParams) (headers : List BBox)
    (candidates : List MergeItem) : List MergeItem :=
  candidates.filter fun it => !excluded_pred p headers it

/-- Every in-place chunk update the stage performs, keyed by the chunk's
index in the input list: the excluded-candidate tags and the per-group
representative updates. -/
def merge_updates (p : MergeParams) (headers : List BBox)
    (candidates : List MergeItem) : List (Nat × Chunk) :=
  ((merge_excluded p headers candidates).map fun it => (it.idx, excluded_update p it)) ++
    (merge_colGroups p headers (merge_mergeable p headers candidates)).map
      fun kg => group_update p kg.1 kg.2

/-- The skip_ids set: ids of absorbed group members. -/
def merge_skips (p : MergeParams) (headers : List BBox)
    (candidates : List MergeItem) : List String :=
  (merge_colGroups p headers (merge_mergeable p headers candidates)).flatMap
    fun kg => group_skips kg.2

/-- The in-place effect of the stage on the chunk at a given index: its
updated value when an update targets the index, else the chunk itself. -/
def merge_apply (p : MergeParams) (headers : List BBox)
    (cand : List MergeItem) (ic : Nat × Chunk) : Chunk :=
  ((merge_updates p headers cand).lookup ic.1).getD ic.2

/-- Whether a chunk survives the final skip filter (its id is not among
the absorbed ids). -/
def merge_keep (p : MergeParams) (headers : List BBox)
    (cand : List MergeItem) (c : Chunk) : Bool :=
  !(merge_skips p headers cand).contains (idStr c)

/-- From merge_note_fragments.merge_note_fragments, generalized over the
merge set (the source fixes it to MERGE_TYPES): collect headers and
candidates on the target page, exclude candidates under headers, cluster
the rest into columns by x0, walk each column in (y0, x0, index) order
forming groups, apply the in-place updates, and drop absorbed chunks. -/
def merge_note_fragments_with (mergeTypes : List String) (chunks : List Chunk)
    (target : Int) (p : MergeParams) : List Chunk × MergeStats :=
  let headers := header_boxes_of chunks target
  let candidates := merge_candidates mergeTypes chunks target
  ((chunks.enum.map (merge_apply p headers candidates)).filter
      (merge_keep p headers candidates),
   { candidates := candidates.length,
     excluded_under_headers := (merge_excluded p headers candidates).length,
     merged_groups :=
       ((merge_colGroups p headers (merge_mergeable p headers candidates)).filter
         fun kg => 1 < kg.2.1.length).length,
     merged_chunks_removed := (merge_skips p headers candidates).length })

/-- Contribution of an emitted chunk to the no-loss count: its
merged_count when it is a composite, else 1. -/
def contribution (c : Chunk) : Nat :=
  ((c.metadata.getD ({} : Metadata)).merged_count).getD 1

/-- Weight one emitted position contributes to the page total: the
contribution of the updated chunk when it survives the skip filter on the
target page, else 0. -/
def merge_weight (p : MergeParams) (headers : List BBox)
    (cand : List MergeItem) (target : Int) (ic : Nat × Chunk) : Nat :=
  if merge_keep p headers cand (merge_apply p headers cand ic) &&
      page_matches (merge_apply p headers cand ic) target then
    contribution (merge_apply p headers cand ic)
  else 0

/-- The source's entry point, with its fixed MERGE_TYPES. -/
def merge_note_fragments (chunks : List Chunk) (target : Int)
    (p : MergeParams) : List Chunk × MergeStats :=
  merge_note_fragments_with MERGE_TYPES chunks target p

/-- Defaults of the merge stage's CLI parameters, used by the
orchestrator, which forwards no overrides. -/
def defaultMergeParams : MergeParams :=
  { max_gap := 34, min_overlap := mkRat 28 100, x_bin_tol := 140,
    x_shift_hard := 150, exclude_under_headers := true,
    header_overlap_thresh := mkRat 35 100 }

/-! Post-merge assertion, from run_notes_page_pipeline.assert_no_header_inside_note. -/

/-- Header boxes the assertion collects: target page, type header (after
lowercasing), parseable bbox. -/
def assert_headers (chunks : List Chunk) (page : Int) : List BBox :=
  chunks.filterMap fun c =>
    if page_matches c page && type_str c == "header" then extract_bbox c else none

/-- Note boxes the assertion collects: target page, type note_group,
parseable bbox. -/
def assert_notes (chunks : List Chunk) (page : Int) : List BBox :=
  chunks.filterMap fun c =>
    if page_matches c page && type_str c == "note_group" then extract_bbox c else none

/-- From run_notes_page_pipeline.assert_no_header_inside_note: the first
header/note pair whose containment ratio meets the threshold; some pair
means the source raises RuntimeError with that pair, none means it
returns. -/
def assert_no_header_inside_note (chunks : List Chunk) (page : Int)
    (containment_thresh : ℚ) : Option (BBox × BBox) :=
  (assert_headers chunks page).findSome? fun hb =>
    ((assert_notes chunks page).find? fun nb =>
      decide (overlap_ratio hb nb ≥ containment_thresh)).map fun nb => (hb, nb)

/-- Note fragment A of the merge counterexample: top strip of a column. -/
def mergeCexNoteA : Chunk :=
  { id := some "a", type := some "note_group", page := some 3,
    text := some "first note line",
    bbox := some (.dictB (some 0) (some 0) (some 100) (some 4)) }

/-- Note fragment B of the merge counterexample: bottom strip, 12 units
below A. -/
def mergeCexNoteB : Chunk :=
  { id := some "b", type := some "note_group", page := some 3,
    text := some "second note line",
    bbox := some (.dictB (some 0) (some 16) (some 100) (some 20)) }

/-- Header of the merge counterexample: a narrow header overlapping A
vertically, so the between-check of the barrier does not fire, yet lying
inside the union of A and B. -/
def mergeCexHeader : Chunk :=
  { id := some "h", type := some "header", page := some 3,
    text := some "GENERAL NOTES:",
    bbox := some (.dictB (some 0) (some 3) (some 10) (some 15)) }

/-- Stacked text_line fragment A of the start-condition counterexample. -/
def textLineA : Chunk :=
  { id := some "a", type := some "text_line", page := some 3,
    text := some "first",
    bbox := some (.dictB (some 0) (some 0) (some 100) (some 4)) }

/-- Stacked text_line fragment B, 2 units below A, well within every
default merge gate. -/
def textLineB : Chunk :=
  { id := some "b", type := some "text_line", page := some 3,
    text := some "second",
    bbox := some (.dictB (some 0) (some 6) (some 100) (some 10)) }

/-- The same fragment as textLineA with type note_group. -/
def noteGroupA : Chunk := { textLineA with type := some "note_group" }

/-- The same fragment as textLineB with type note_group. -/
def noteGroupB : Chunk := { textLineB with type := some "note_group" }

/-! Column clustering of tools/visualize_note_columns.py (x-center based)
and its monotonicity, claim C8. -/

/-- Cluster state of visualize_note_columns.cluster_by_xcenter: running
mean center and member item indices. -/
structure XCCluster where
  center : ℚ
  members : List Nat
deriving DecidableEq, Repr, Inhabited

/-- x-center of a box, from (b[0] + b[2]) / 2.0. -/
def x_center (b : BBox) : ℚ := qdiv (b.x0 + b.x1) 2

/-- Top-level scalar fallback of visualize_note_columns.get_bbox: used
only when all four keys are present, values taken as-is (no swap). -/
def vizTopLevel (c : Chunk) : Option BBox :=
  match c.x0, c.y0, c.x1, c.y1 with
  | some a, some b, some d, some e => some ⟨a, b, d, e⟩
  | _, _, _, _ => none

/-- From visualize_note_columns.get_bbox: a list bbox of length exactly 4
is read positionally (entries must be numeric, a non-numeric entry makes
the read fail); a dict bbox reads each key with default 0.0; otherwise
the four top-level fields are used when all are present.  Unlike
bbox_utils.extract_bbox there is no coordinate swapping. -/
def vizGetBBox (c : Chunk) : Option BBox :=
  match c.bbox with
  | some (.listB [some a, some b, some d, some e]) => some ⟨a, b, d, e⟩
  | some (.listB l) => if l.length = 4 then none else vizTopLevel c
  | some (.dictB a b d e) => some ⟨a.getD 0, b.getD 0, d.getD 0, e.getD 0⟩
  | some .otherB => vizTopLevel c
  | none => vizTopLevel c

/-- First index attaining the minimal distance from xc, scanning with a
running best, as Python's min over range(len(clusters)). -/
def bestIdxAux (xc : ℚ) : List ℚ → Nat → Nat → ℚ → Nat
  | [], _, bi, _ => bi
  | c :: rest, k, bi, bd =>
    if qabs (xc - c) < bd then bestIdxAux xc rest (k + 1) k (qabs (xc - c))
    else bestIdxAux xc rest (k + 1) bi bd

/-- Index of the nearest center to xc (first minimum). -/
def bestIdx (xc : ℚ) (centers : List ℚ) : Nat :=
  match centers with
  | [] => 0
  | c :: rest => bestIdxAux xc rest 1 0 (qabs (xc - c))

/-- One step of cluster_by_xcenter's loop: join the nearest cluster when
its distance is within tol (appending the member and updating the running
mean in place), else append a new singleton cluster. -/
def xc_step (tol : ℚ) (clusters : List XCCluster) (pt : Nat × ℚ) :
    List XCCluster :=
  match clusters with
  | [] => [⟨pt.2, [pt.1]⟩]
  | c0 :: rest =>
    let cs := c0 :: rest
    let bi := bestIdx pt.2 (cs.map XCCluster.center)
    let c := cs.getD bi default
    if qabs (pt.2 - c.center) ≤ tol then
      cs.set bi
        ⟨qdiv (c.center * (c.members.length : ℚ) + pt.2)
          ((c.members.length : ℚ) + 1), c.members ++ [pt.1]⟩
    else cs ++ [⟨pt.2, [pt.1]⟩]

/-- 0-based column assignment of a final cluster list: enumerate the
clusters and map every member index to its cluster's position. -/
def colAssign {α : Type} (f : α → List Nat) (cs : List α) :
    List (Nat × Nat) :=
  cs.enum.flatMap fun p => (f p.2).map fun i => (i, p.1)

/-- The (index, x-center) list collected by cluster_by_xcenter from the
items whose box parses. -/
def viz_centers (items : List (Nat × Chunk)) : List (Nat × ℚ) :=
  items.filterMap fun ic => (vizGetBBox ic.2).map fun b => (ic.1, x_center b)

/-- From visualize_note_columns.cluster_by_xcenter: when no item has a
parseable box every item maps to column 0; else sort the centers, fold
the nearest-cluster step, sort the clusters by center and assign 0-based
column indices to their members. -/
def cluster_by_xcenter (items : List (Nat × Chunk)) (tol : ℚ) :
    List (Nat × Nat) :=
  let centers := viz_centers items
  if centers.isEmpty then items.map fun ic => (ic.1, 0)
  else
    colAssign XCCluster.members
      (((centers.mergeSort fun p q => decide (p.2 ≤ q.2)).foldl
          (xc_step tol) []).mergeSort fun c d => decide (c.center ≤ d.center))

/-- Proof companion of XCCluster carrying the member x-center values the
running mean averages. -/
structure XCAug where
  center : ℚ
  members : List Nat
  vals : List ℚ
deriving Repr, Inhabited

/-- Forget the carried values. -/
def xcProj (c : XCAug) : XCCluster := ⟨c.center, c.members⟩

/-- The clustering step on augmented clusters. -/
def xc_step_aug (tol : ℚ) (clusters : List XCAug) (pt : Nat × ℚ) :
    List XCAug :=
  match clusters with
  | [] => [⟨pt.2, [pt.1], [pt.2]⟩]
  | c0 :: rest =>
    let cs := c0 :: rest
    let bi := bestIdx pt.2 (cs.map XCAug.center)
    let c := cs.getD bi default
    if qabs (pt.2 - c.center) ≤ tol then
      cs.set bi
        ⟨qdiv (c.center * (c.members.length : ℚ) + pt.2)
          ((c.members.length : ℚ) + 1), c.members ++ [pt.1],
          c.vals ++ [pt.2]⟩
    else cs ++ [⟨pt.2, [pt.1], [pt.2]⟩]

/-- Loop invariant of the x-center clustering fold over a sorted input:
the member/value pairs of the clusters concatenate to the processed
prefix, every cluster is a nonempty run whose center is the mean of its
values, and the centers are strictly increasing. -/
def XCInv (cs : List XCAug) (ps : List (Nat × ℚ)) : Prop :=
  cs.flatMap (fun c => c.members.zip c.vals) = ps ∧
  (∀ c ∈ cs, c.members.length = c.vals.length ∧ c.vals ≠ [] ∧
    c.center = mean_of c.vals) ∧
  (cs.map XCAug.center).Pairwise (· < ·)

/-- Loop invariant of the x0 clustering fold: the member/value pairs of
the clusters concatenate to the processed prefix and every cluster is a
nonempty run whose rep is the mean of its xs. -/
def X0Inv (cs : List X0Cluster) (ps : List (Nat × ℚ)) : Prop :=
  cs.flatMap (fun c => c.members.zip c.xs) = ps ∧
  ∀ c ∈ cs, c.members.length = c.xs.length ∧ c.xs ≠ [] ∧
    c.rep = mean_of c.xs

/-- Fragment whose box has x-center 1/2, for the clustering theorems. -/
def vizChunkHalf : Chunk :=
  { id := some "vh",
    bbox := some (.dictB (some 0) (some 0) (some 1) (some 0)) }

/-- Fragment whose box has x-center 0. -/
def vizChunkZero : Chunk :=
  { id := some "vz",
    bbox := some (.dictB (some 0) (some 0) (some 0) (some 0)) }

/-- Merge item with x0 = 1/2. -/
def x0ItemHalf : MergeItem := ⟨1, vizChunkHalf, ⟨mkRat 1 2, 0, 1, 0⟩⟩

/-- Merge item with x0 = 0. -/
def x0ItemZero : MergeItem := ⟨0, vizChunkZero, ⟨0, 0, 0, 0⟩⟩

/-! Post-merge stitcher, from tools/fix_split_notes_postmerge.py,
claim C10. -/

/-- Trailing part of the bullet regex, (?:\s+|$): end of string or at
least one whitespace character. -/
def bulletTail (cs : List Char) : Bool :=
  match cs with
  | [] => true
  | c :: _ => pySpace c

/-- From fix_split_notes_postmerge.looks_like_bullet, matching BULLET_RE:
optional leading whitespace, then one to three digits followed by a
period or closing parenthesis, or a single capital letter followed by a
period or closing parenthesis, or one of the characters hyphen, star,
bullet and plus; then whitespace or end of text.  A longer digit run
cannot match: backtracking leaves a digit where the period or
parenthesis must stand. -/
def looks_like_bullet (s : String) : Bool :=
  let cs := s.data.dropWhile pySpace
  let ds := cs.takeWhile Char.isDigit
  ((decide (1 ≤ ds.length) && decide (ds.length ≤ 3)) &&
    (match cs.dropWhile Char.isDigit with
     | c :: rest2 => (c == '.' || c == ')') && bulletTail rest2
     | [] => false)) ||
  (match cs with
   | c :: d :: rest2 =>
     (decide ('A' ≤ c) && decide (c ≤ 'Z')) && (d == '.' || d == ')') &&
       bulletTail rest2
   | _ => false) ||
  (match cs with
   | c :: rest2 =>
     (c == '-' || c == '*' || c == '•' || c == '+') && bulletTail rest2
   | [] => false)

/-- From fix_split_notes_postmerge.get_text: the text field when it is a
string, else the content field, else empty. -/
def stitch_text (c : Chunk) : String :=
  match c.text with
  | some t => t
  | none => c.content.getD ""

/-- Python str.lstrip with no argument. -/
def py_lstrip (s : String) : String := String.mk (s.data.dropWhile pySpace)

/-- Python str.rstrip with no argument. -/
def py_rstrip (s : String) : String :=
  String.mk ((s.data.reverse.dropWhile pySpace).reverse)

/-- From fix_split_notes_postmerge.merge_text: rstrip the first blob,
lstrip the second, join with a single space; an empty side yields the
other. -/
def stitch_merge_text (a b : String) : String :=
  let a2 := py_rstrip a
  let b2 := py_lstrip b
  if a2 = "" then b2
  else if b2 = "" then a2
  else a2 ++ " " ++ b2

/-- From fix_split_notes_postmerge._get_visual_column_index: the
top-level field when present, else the metadata field. -/
def _get_visual_column_index (c : Chunk) : Option Int :=
  match c.visual_column_index with
  | some v => some v
  | none =>
    match c.metadata with
    | some m => m.visual_column_index
    | none => none

/-- From fix_split_notes_postmerge.assign_fallback_columns_by_x0, a
verbatim copy of the merger's x0 clustering. -/
def assign_fallback_columns_by_x0 (items : List MergeItem)
    (x0_tolerance : ℚ) : List (Nat × Nat) :=
  _cluster_by_x0 items x0_tolerance

/-- From fix_split_notes_postmerge.get_page_num: the page value when
present, else 0 (the page_index/page_number/page_num aliases are not
modelled; a non-integer page is modelled as absent). -/
def get_page_num (c : Chunk) : Int := c.page.getD 0

/-- Sort key of stitch_page's per-column sort: (y0, x0, original index),
lexicographically. -/
def stitch_le (p q : MergeItem) : Bool :=
  decide (p.box.y0 < q.box.y0) ||
    (p.box.y0 == q.box.y0 &&
      (decide (p.box.x0 < q.box.x0) ||
        (p.box.x0 == q.box.x0 && decide (p.idx ≤ q.idx))))

/-- The stitched chunk built from the bullet chunk of a group: text and
content set to the merged text, the canonical bbox written, and the
stitching metadata recorded. -/
def mkStitched (c : Chunk) (t : String) (b : BBox) (ids : List String)
    (colIdx : Int) : Chunk :=
  let base := write_bbox { c with text := some t, content := some t } b
  let md := base.metadata.getD ({} : Metadata)
  { base with metadata := some ({ md with
      postmerge_stitched := true,
      postmerge_stitched_from_ids := ids,
      postmerge_column_index := some colIdx }) }

/-- Inner absorption loop of stitch_page: take following chunks while
they are not bullets, the vertical gap from the running box stays within
max_gap and the horizontal overlap stays at or above min_overlap;
accumulate merged text, the union box and the source ids, and return the
unconsumed remainder. -/
def stitch_absorb (mg mo : ℚ) :
    List MergeItem → String → BBox → List String →
      String × BBox × List String × List MergeItem
  | [], t, b, ids => (t, b, ids, [])
  | n :: rest, t, b, ids =>
    if looks_like_bullet (stitch_text n.ch) then (t, b, ids, n :: rest)
    else if decide (b.vertical_gap_to n.box > mg) ||
        decide (b.horizontal_overlap_ratio n.box < mo) then
      (t, b, ids, n :: rest)
    else
      stitch_absorb mg mo rest (stitch_merge_text t (stitch_text n.ch))
        (b.union n.box) (ids ++ [idStr n.ch])

/-- Outer loop of stitch_page over one sorted column, with explicit fuel
(the loop consumes at least one item per iteration, so fuel equal to the
column length suffices): a non-bullet chunk passes through, a bullet chunk
absorbs its continuation lines into a stitched chunk. -/
def stitch_run (mg mo : ℚ) (colIdx : Int) :
    Nat → List MergeItem → List Chunk
  | 0, _ => []
  | _ + 1, [] => []
  | fuel + 1, it :: rest =>
    if !looks_like_bullet (stitch_text it.ch) then
      it.ch :: stitch_run mg mo colIdx fuel rest
    else
      match stitch_absorb mg mo rest (stitch_text it.ch) it.box
          [idStr it.ch] with
      | (mt, mb, ids, rest2) =>
        mkStitched it.ch mt mb ids colIdx ::
          stitch_run mg mo colIdx fuel rest2

/-- Column of an item inside stitch_page: its visual column when the
visual strategy is active and the value is present, else the fallback
x0-cluster column (default 0). -/
def stitch_col (use_visual : Bool) (fallback : List (Nat × Nat))
    (it : MergeItem) : Int :=
  if use_visual then (_get_visual_column_index it.ch).getD 0
  else (col_of fallback it.idx : Int)

/-- From fix_split_notes_postmerge.stitch_page: choose the column
strategy (visual indices when at least two distinct ones exist, else x0
clustering), group the items by column, process the columns in
ascending order with each column sorted by (y0, x0, index), and set the
page field on every produced chunk. -/
def stitch_page (page_num : Int) (page_items : List MergeItem)
    (mg mo xt : ℚ) : List Chunk :=
  let visual_cols := page_items.filterMap fun it =>
    _get_visual_column_index it.ch
  let use_visual := decide (2 ≤ visual_cols.dedup.length)
  let fallback := if use_visual then []
    else assign_fallback_columns_by_x0 page_items xt
  let keys := ((page_items.map (stitch_col use_visual fallback)).dedup
    ).mergeSort fun a b => decide (a ≤ b)
  (keys.flatMap fun k =>
    let items := (page_items.filter fun it =>
      stitch_col use_visual fallback it == k).mergeSort stitch_le
    stitch_run mg mo k items.length items).map
      fun c => { c with page := some page_num }

/-- From fix_split_notes_postmerge.main: enumerate the chunks, keep
those on the requested page (all pages when only_page is absent) whose
bbox parses — a chunk whose bbox does not parse is skipped here and
never reaches the output — then emit the chunks of unprocessed pages
unchanged followed by each processed page's stitched chunks in
ascending page order. -/
def fix_split_notes_main (chunks : List Chunk) (only_page : Option Int)
    (mg mo xt : ℚ) : List Chunk :=
  let items := chunks.enum.filterMap fun ic =>
    if (match only_page with
        | some t => get_page_num ic.2 == t
        | none => true) then
      (extract_bbox ic.2).map fun b => (⟨ic.1, ic.2, b⟩ : MergeItem)
    else none
  let pageKeys := ((items.map fun it => get_page_num it.ch).dedup
    ).mergeSort fun a b => decide (a ≤ b)
  let passThrough := match only_page with
    | some t => chunks.filter fun c => !(get_page_num c == t)
    | none => []
  passThrough ++ pageKeys.flatMap fun p =>
    stitch_page p (items.filter fun it => get_page_num it.ch == p) mg mo xt

/-- Fragment with no bbox in any schema: bbox key absent and no
top-level coordinates. -/
def boxlessChunk : Chunk :=
  { id := some "nb", type := some "text_line", page := some 3,
    text := some "stranded note line" }

theorem qdiv_eq_div (a b : ℚ) : qdiv a b = a / b := by
  have had : (a.den : ℚ) ≠ 0 := (Nat.cast_pos.mpr a.den_pos).ne'
  have hbd : (b.den : ℚ) ≠ 0 := (Nat.cast_pos.mpr b.den_pos).ne'
  have h1 : (a.num : ℚ) = a * a.den := (div_eq_iff had).mp (Rat.num_div_den a)
  rcases eq_or_ne b 0 with rfl | hb0
  · unfold qdiv
    norm_num [Rat.mkRat_eq_div]
  · have hbn : (b.num : ℚ) ≠ 0 := by
      exact_mod_cast Rat.num_ne_zero.mpr hb0
    have h2 : (b.num : ℚ) = b * b.den := (div_eq_iff hbd).mp (Rat.num_div_den b)
    unfold qdiv
    rcases le_or_lt 0 b.num with hb | hb
    · rw [if_pos hb, Rat.mkRat_eq_div]
      have h3 : ((b.num.toNat : ℕ) : ℚ) = (b.num : ℚ) := by
        exact_mod_cast Int.toNat_of_nonneg hb
      push_cast [h3]
      rw [div_eq_div_iff (mul_ne_zero had hbn) hb0]
      rw [h1, h2]; ring
    · rw [if_neg (not_le.mpr hb), Rat.mkRat_eq_div]
      have hnn : (0 : ℤ) ≤ -b.num := by linarith
      have h3 : (((-b.num).toNat : ℕ) : ℚ) = (-(b.num : ℚ)) := by
        exact_mod_cast Int.toNat_of_nonneg hnn
      push_cast [h3]
      have hd2 : ((a.den : ℚ) * (-(b.num : ℚ))) ≠ 0 :=
        mul_ne_zero had (neg_ne_zero.mpr hbn)
      rw [div_eq_div_iff hd2 hb0]
      rw [h1, h2]; ring

/-- C5 (counterexample): the text GENERAL NOTES (TYP). satisfies all five
conditions listed by the spec (keyword, no see/refer-to, uppercase ratio,
word count, whitelist) yet is_header_candidate rejects it, so the
classifier is not the five-condition conjunction. -/
theorem c5_header_classifier_counterexample :
    is_header_candidate "GENERAL NOTES (TYP)." = false ∧
      headerFiveConditions "GENERAL NOTES (TYP)." = true := by
  constructor <;> decide

set_option maxHeartbeats 1000000 in

/-- C5 (amended): for every text string, the classifier returns True iff
the five conditions of the spec hold AND the text is not a sentence-like
parenthetical, i.e. it does not end with a period while containing an
opening parenthesis without a continuation marker — the sixth check the
source applies. -/
theorem c5_header_classifier_amended (t : String) :
    is_header_candidate t = (headerFiveConditions t && !sentence_like_reject t) := by
  simp only [is_header_candidate, headerFiveConditions, sentence_like_reject]
  by_cases h0 : normalize_spaces t = ""
  · rw [h0]; decide
  rw [if_neg h0]
  split_ifs with h2 h3 h4 h5 h6 h7
  all_goals simp_all [not_lt, not_le, not_or, Bool.not_eq_true]
  · intro _ hw1 hw2 _
    exfalso; omega
  · constructor
    · rcases Bool.eq_false_or_eq_true (bad_context_search (normalize_spaces t)) with hbb | hbb
      · exact Or.inr (h3 hbb)
      · exact Or.inl hbb
    · by_cases hee : ends_with_period (normalize_spaces t) = true
      · by_cases hpp : '(' ∈ (normalize_spaces t).data
        · exact Or.inr (h4 hee hpp)
        · exact Or.inl (Or.inr hpp)
      · exact Or.inl (Or.inl (Bool.eq_false_iff.mpr hee))

unseal Rat.sub Rat.add Rat.mul in
/-- C6 (counterexample): for the rectangle with width one half paired with
itself, the source's horizontal_overlap_ratio returns one half (its
denominator is max(min(widths), 1) = 1), not overlap width divided by
min(width a, width b) = 1, so the claimed equation fails for rectangles of
positive width below one. -/
theorem c6_horizontal_overlap_counterexample :
    0 < BBox.w ⟨0, 0, mkRat 1 2, 1⟩ ∧
      BBox.horizontal_overlap_ratio ⟨0, 0, mkRat 1 2, 1⟩ ⟨0, 0, mkRat 1 2, 1⟩ ≠
        max 0 (min (mkRat 1 2) (mkRat 1 2) - max (0 : ℚ) 0) /
          min (BBox.w ⟨0, 0, mkRat 1 2, 1⟩) (BBox.w ⟨0, 0, mkRat 1 2, 1⟩) := by
  constructor
  · decide
  · simp only [BBox.horizontal_overlap_ratio, BBox.w, qdiv_eq_div, Rat.mkRat_eq_div]
    norm_num

/-- C6 (amended): horizontal_overlap_ratio equals the horizontal overlap
width divided by max(min(width a, width b), 1); in particular, whenever
both widths are at least 1 it equals overlap width divided by
min(width a, width b) as the spec states. -/
theorem c6_horizontal_overlap_amended (a b : BBox) (ha : 1 ≤ a.w) (hb : 1 ≤ b.w) :
    a.horizontal_overlap_ratio b =
      max 0 (min a.x1 b.x1 - max a.x0 b.x0) / min a.w b.w := by
  unfold BBox.horizontal_overlap_ratio
  rw [qdiv_eq_div, max_eq_left (le_min ha hb)]

unseal Rat.sub Rat.add Rat.mul in
/-- C6 (witness): the amended statement applied to a concrete rectangle of
width two. -/
theorem c6_horizontal_overlap_witness :
    1 ≤ BBox.w ⟨0, 0, 2, 1⟩ ∧
      BBox.horizontal_overlap_ratio ⟨0, 0, 2, 1⟩ ⟨0, 0, 2, 1⟩ =
        max 0 (min 2 2 - max (0 : ℚ) 0) /
          min (BBox.w ⟨0, 0, 2, 1⟩) (BBox.w ⟨0, 0, 2, 1⟩) :=
  ⟨by decide, c6_horizontal_overlap_amended ⟨0, 0, 2, 1⟩ ⟨0, 0, 2, 1⟩ (by decide) (by decide)⟩

theorem tmp_ne_self (p : String) : p ++ ".tmp" ≠ p := by
  intro h
  have h2 := congrArg String.length h
  rw [String.length_append] at h2
  have : String.length ".tmp" = 4 := rfl
  omega

/-- C4 (counterexample): the header-tagging stage's save_json writes the
output path directly with no rename, so the header-tagging stage does not
follow the temp-file-then-rename discipline the claim asserts for every
stage. -/
theorem c4_atomic_writes_counterexample :
    atomic_write_to (save_json_trace "stage1_headers_tagged.json")
      "stage1_headers_tagged.json" = false := by
  decide

/-- C4 (amended): only the merging and bbox-tightening stages write
atomically (temp file then rename); the header-tagging, banner-splitting
and stitching stages write the output path directly. -/
theorem c4_atomic_writes_amended (p : String) :
    atomic_write_to (atomic_write_json_trace p) p = true ∧
      atomic_write_to (save_json_trace p) p = false ∧
      atomic_write_to (split_banner_write_json_trace p) p = false ∧
      atomic_write_to (stitch_write_trace p) p = false := by
  have hne : (p ++ ".tmp" == p) = false := beq_eq_false_iff_ne.mpr (tmp_ne_self p)
  refine ⟨?_, ?_, ?_, ?_⟩ <;>
    simp [atomic_write_to, renames_onto, writes_directly, atomic_write_json_trace,
      save_json_trace, split_banner_write_json_trace, stitch_write_trace, List.any, hne]

theorem validate_chunk_none_not_degenerate (rbd : Bool) (c : Chunk) (b : BBox)
    (h : validate_chunk rbd c = none) (hb : extract_bbox c = some b) :
    0 < b.w ∧ 0 < b.h := by
  unfold validate_chunk at h
  split_ifs at h <;> simp_all

theorem validate_loop_error (page : Option Int) (rbd : Bool)
    (l : List Chunk) (c : Chunk) (b : BBox)
    (hmem : c ∈ l)
    (hpage : page.all (fun p => page_matches c p) = true)
    (hbox : extract_bbox c = some b)
    (hdeg : b.w ≤ 0 ∨ b.h ≤ 0) :
    ∀ st, ∃ e, validate_loop page rbd l st = .error e := by
  induction l with
  | nil => cases hmem
  | cons d rest ih =>
    intro st
    rcases List.mem_cons.mp hmem with rfl | hc
    · unfold validate_loop
      have hskip : (page.all (fun p => !page_matches c p) && page.isSome) = false := by
        cases page with
        | none => simp
        | some p =>
          simp only [Option.all_some] at hpage ⊢
          simp [hpage]
      rw [hskip]
      simp only [Bool.false_eq_true, if_false]
      cases he : validate_chunk rbd c with
      | some e => exact ⟨e, rfl⟩
      | none =>
        have := validate_chunk_none_not_degenerate rbd c b he hbox
        rcases hdeg with h | h
        · exact absurd this.1 (not_lt.mpr h)
        · exact absurd this.2 (not_lt.mpr h)
    · unfold validate_loop
      split_ifs with hs
      · exact ih hc _
      · cases he : validate_chunk rbd d with
        | some e => exact ⟨e, rfl⟩
        | none => exact ih hc _

unseal Rat.sub Rat.add Rat.mul in
/-- C9: the reader normalizes the swapped bbox [10,10,5,5] to the
rectangle (5,5,10,10); validating the zero-width fragment raises the
degenerate-bbox error naming the fragment; and in general, whenever a
validated fragment on the target page parses to a rectangle of
non-positive width or height, validate_stage returns an error instead of
repairing the data. -/
theorem c9_reader_normalization_and_degenerate_rejection :
    extract_bbox swappedChunk = some ⟨5, 5, 10, 10⟩ ∧
      validate_stage [zeroWidthChunk] (some 3) true =
        .error (.degenerateBBox "f1" "text_line" ⟨10, 10, 10, 20⟩) ∧
      ∀ (chunks : List Chunk) (page : Option Int) (rbd : Bool) (c : Chunk) (b : BBox),
        c ∈ chunks →
        page.all (fun p => page_matches c p) = true →
        extract_bbox c = some b →
        b.w ≤ 0 ∨ b.h ≤ 0 →
        ∃ e, validate_stage chunks page rbd = .error e := by
  refine ⟨by decide, by rfl, ?_⟩
  intro chunks page rbd c b hmem hpage hbox hdeg
  exact validate_loop_error page rbd chunks c b hmem hpage hbox hdeg _

unseal Rat.sub Rat.add Rat.mul in
/-- C9 (witness): the general rejection statement applied to the concrete
zero-width fragment. -/
theorem c9_reader_normalization_witness :
    ∃ e, validate_stage [zeroWidthChunk] (some 3) false = .error e :=
  c9_reader_normalization_and_degenerate_rejection.2.2
    [zeroWidthChunk] (some 3) false zeroWidthChunk ⟨10, 10, 10, 20⟩
    (by decide) (by decide) (by decide) (by decide)

theorem findSome_isSome_iff {α β : Type} (f : α → Option β) (l : List α) :
    (l.findSome? f).isSome = true ↔ ∃ x ∈ l, (f x).isSome = true := by
  induction l with
  | nil => simp
  | cons a rest ih =>
    rw [List.findSome?_cons]
    cases hf : f a with
    | some b => simp [hf]
    | none => simp [hf, ih]

unseal Rat.sub Rat.add Rat.mul Rat.inv List.merge List.mergeSort in
/-- C1 (counterexample): the merge stage itself does not enforce the
header containment bound.  On the concrete input of two stacked notes and
a narrow header that overlaps the upper note vertically (so it is not
between the two), the merger fuses the notes and the header's rectangle
is fully (ratio 1, at least 0.80) contained in the merged note_group
rectangle, so the post-merge assertion fires on the merge output. -/
theorem c1_header_containment_counterexample :
    (assert_no_header_inside_note
      ((merge_note_fragments [mergeCexNoteA, mergeCexNoteB, mergeCexHeader] 3
        defaultMergeParams).1) 3 (mkRat 80 100)).isSome = true := by
  decide

/-- C1 (amended): the merge stage can emit a collection in which a header
is at least 80 percent contained in a note_group rectangle (see the
counterexample); what holds is the assertion half of the claim: the
orchestrator's post-merge assertion raises exactly when some header/note
pair on the page reaches the containment threshold. -/
theorem c1_post_merge_assertion_amended (chunks : List Chunk) (page : Int)
    (thresh : ℚ) :
    (assert_no_header_inside_note chunks page thresh).isSome = true ↔
      ∃ hb ∈ assert_headers chunks page, ∃ nb ∈ assert_notes chunks page,
        thresh ≤ overlap_ratio hb nb := by
  unfold assert_no_header_inside_note
  rw [findSome_isSome_iff]
  constructor
  · rintro ⟨hb, hmem, hsome⟩
    rw [Option.isSome_map', List.find?_isSome] at hsome
    rcases hsome with ⟨nb, hnb, hp⟩
    exact ⟨hb, hmem, nb, hnb, by simpa using hp⟩
  · rintro ⟨hb, hmem, nb, hnb, hp⟩
    refine ⟨hb, hmem, ?_⟩
    rw [Option.isSome_map', List.find?_isSome]
    exact ⟨nb, hnb, by simpa using hp⟩

unseal Rat.sub Rat.add Rat.mul Rat.inv List.merge List.mergeSort in
/-- C2 (counterexample): two stacked non-header text_line fragments that
satisfy every merge gate are left untouched by the merger (no group
opens, output identical), while the same two rectangles typed note_group
are merged; so a non-header fragment of another category is not a merge
candidate and non-header status alone does not open a group. -/
theorem c2_merger_start_condition_counterexample :
    (merge_note_fragments [textLineA, textLineB] 3 defaultMergeParams).1 =
        [textLineA, textLineB] ∧
      (merge_note_fragments [textLineA, textLineB] 3
        defaultMergeParams).2.merged_groups = 0 ∧
      (merge_note_fragments [noteGroupA, noteGroupB] 3
        defaultMergeParams).2.merged_groups = 1 := by
  refine ⟨by decide, by decide, by decide⟩

theorem merge_candidates_nil_types (chunks : List Chunk) (target : Int) :
    merge_candidates [] chunks target = [] := by
  simp [merge_candidates, cand_fn]

theorem merge_with_empty_types (chunks : List Chunk) (target : Int)
    (p : MergeParams) :
    merge_note_fragments_with [] chunks target p = (chunks, ⟨0, 0, 0, 0⟩) := by
  unfold merge_note_fragments_with
  rw [merge_candidates_nil_types]
  have hupd : merge_updates p (header_boxes_of chunks target) [] = [] := by
    simp [merge_updates, merge_excluded, merge_mergeable, merge_colGroups,
      _cluster_by_x0]
  have hskip : merge_skips p (header_boxes_of chunks target) [] = [] := by
    simp [merge_skips, merge_colGroups, merge_mergeable, _cluster_by_x0]
  have hmap : chunks.enum.map (merge_apply p (header_boxes_of chunks target) []) =
      chunks := by
    have hcongr : ∀ ic ∈ chunks.enum,
        merge_apply p (header_boxes_of chunks target) [] ic = Prod.snd ic := by
      intro ic _
      simp [merge_apply, hupd]
    rw [List.map_congr_left hcongr]
    exact List.enum_map_snd chunks
  have hfil : chunks.filter (merge_keep p (header_boxes_of chunks target) []) =
      chunks := by
    refine List.filter_eq_self.mpr ?_
    intro c _
    simp [merge_keep, hskip]
  simp only [hmap, hfil, hskip, merge_excluded, merge_colGroups,
    merge_mergeable, _cluster_by_x0]
  simp

/-- C7: running the merger a second time on its own output with
note_group treated as non-mergeable (removed from MERGE_TYPES, leaving
the merge set empty) changes nothing: the second pass returns the
identical collection and zero merged groups for every input and every
parameter setting. -/
theorem c7_merge_idempotence (chunks : List Chunk) (target : Int)
    (p p2 : MergeParams) :
    merge_note_fragments_with (MERGE_TYPES.filter fun t => t ≠ "note_group")
      ((merge_note_fragments chunks target p).1) target p2 =
      ((merge_note_fragments chunks target p).1, ⟨0, 0, 0, 0⟩) := by
  have h : (MERGE_TYPES.filter fun t => t ≠ "note_group") = [] := rfl
  rw [h, merge_with_empty_types]
/- Group walk structure -/

theorem group_step_fold_join (p : MergeParams) (headers : List BBox)
    (items : List MergeItem) :
    ∀ done cur,
      (((items.foldl (group_step p headers) (done, cur)).1.flatMap Prod.fst) ++
        (((items.foldl (group_step p headers) (done, cur)).2.elim [] Prod.fst))) =
      ((done.flatMap Prod.fst) ++ (cur.elim [] Prod.fst)) ++ items := by
  induction items with
  | nil => intro done cur; simp
  | cons n rest ih =>
    intro done cur
    rw [List.foldl_cons]
    cases cur with
    | none =>
      rw [show group_step p headers (done, none) n = (done, some ([n], n.box)) from rfl]
      rw [ih]
      simp
    | some g =>
      by_cases hg : merge_gates p headers g.2 n
      · rw [show group_step p headers (done, some g) n =
          (done, some (g.1 ++ [n], g.2.union n.box)) from by
            simp [group_step, hg]]
        rw [ih]
        simp
      · rw [show group_step p headers (done, some g) n =
          (done ++ [g], some ([n], n.box)) from by
            simp [group_step, hg]]
        rw [ih]
        simp

theorem form_groups_flatten (p : MergeParams) (headers : List BBox)
    (items : List MergeItem) :
    (form_groups p headers items).flatMap Prod.fst = items := by
  unfold form_groups
  have h := group_step_fold_join p headers items [] none
  rcases hf : items.foldl (group_step p headers) ([], none) with ⟨done, cur⟩
  rw [hf] at h
  cases cur with
  | none => simpa using h
  | some g => simpa using h

theorem group_step_fold_nonempty (p : MergeParams) (headers : List BBox)
    (items : List MergeItem) :
    ∀ done cur,
      (∀ g ∈ done, g.1 ≠ []) → (∀ g, cur = some g → g.1 ≠ []) →
      (∀ g ∈ (items.foldl (group_step p headers) (done, cur)).1, g.1 ≠ []) ∧
      (∀ g, (items.foldl (group_step p headers) (done, cur)).2 = some g → g.1 ≠ []) := by
  induction items with
  | nil => intro done cur h1 h2; exact ⟨h1, h2⟩
  | cons n rest ih =>
    intro done cur h1 h2
    rw [List.foldl_cons]
    cases cur with
    | none =>
      exact ih done (some ([n], n.box)) h1 (by rintro g hg; cases hg; simp)
    | some g =>
      by_cases hg : merge_gates p headers g.2 n
      · rw [show group_step p headers (done, some g) n =
          (done, some (g.1 ++ [n], g.2.union n.box)) from by simp [group_step, hg]]
        refine ih done _ h1 ?_
        rintro g2 hg2
        cases hg2
        simp
      · rw [show group_step p headers (done, some g) n =
          (done ++ [g], some ([n], n.box)) from by simp [group_step, hg]]
        refine ih _ _ ?_ ?_
        · intro g2 hg2
          rcases List.mem_append.mp hg2 with h | h
          · exact h1 _ h
          · rcases List.mem_singleton.mp h with rfl
            exact h2 _ rfl
        · rintro g2 hg2
          cases hg2
          simp

theorem form_groups_nonempty (p : MergeParams) (headers : List BBox)
    (items : List MergeItem) :
    ∀ g ∈ form_groups p headers items, g.1 ≠ [] := by
  unfold form_groups
  have h := group_step_fold_nonempty p headers items [] none
    (by simp) (by rintro g hg; cases hg)
  rcases hf : items.foldl (group_step p headers) ([], none) with ⟨done, cur⟩
  rw [hf] at h
  cases cur with
  | none => exact h.1
  | some g =>
    intro g2 hg2
    rcases List.mem_append.mp hg2 with hm | hm
    · exact h.1 _ hm
    · rcases List.mem_singleton.mp hm with rfl
      exact h.2 _ rfl

/- Candidate shape lemmas -/

theorem cand_fn_spec (mt : List String) (target : Int) :
    ∀ (q : Nat × Chunk) (it : MergeItem), cand_fn mt target q = some it →
      it.idx = q.1 ∧ it.ch = q.2 ∧ page_matches q.2 target = true ∧
        _is_header q.2 = false ∧ mt.contains (type_str q.2) = true ∧
        extract_bbox q.2 = some it.box := by
  intro q it heq
  unfold cand_fn at heq
  by_cases hcond : (page_matches q.2 target && !_is_header q.2 &&
      mt.contains (type_str q.2)) = true
  · rw [if_pos hcond] at heq
    rcases hb : extract_bbox q.2 with _ | b
    · rw [hb] at heq; simp at heq
    · rw [hb] at heq
      simp only [Option.map_some'] at heq
      cases heq
      simp only [Bool.and_eq_true, Bool.not_eq_true'] at hcond
      refine ⟨rfl, rfl, hcond.1.1, hcond.1.2, hcond.2, ?_⟩
      rfl
  · rw [if_neg hcond] at heq
    simp at heq

theorem merge_candidates_mem {mt : List String} {chunks : List Chunk} {target : Int}
    {it : MergeItem} (h : it ∈ merge_candidates mt chunks target) :
    (it.idx, it.ch) ∈ chunks.enum ∧ page_matches it.ch target = true ∧
      _is_header it.ch = false ∧ mt.contains (type_str it.ch) = true ∧
      extract_bbox it.ch = some it.box := by
  unfold merge_candidates at h
  rcases List.mem_filterMap.mp h with ⟨⟨i, c⟩, hic, heq⟩
  rcases cand_fn_spec mt target (i, c) it heq with ⟨h1, h2, h3, h4, h5, h6⟩
  refine ⟨?_, ?_, ?_, ?_, ?_⟩
  · rw [h1, h2]; exact hic
  · rw [h2]; exact h3
  · rw [h2]; exact h4
  · rw [h2]; exact h5
  · rw [h2]; exact h6

theorem filterMap_item_mem_fst {l : List (Nat × Chunk)}
    {f : Nat × Chunk → Option MergeItem}
    (hf : ∀ q it, f q = some it → it.idx = q.1)
    {it : MergeItem} (h : it ∈ l.filterMap f) : it.idx ∈ l.map Prod.fst := by
  rcases List.mem_filterMap.mp h with ⟨q, hq, heq⟩
  rw [hf q it heq]
  exact List.mem_map_of_mem _ hq

theorem filterMap_item_idx_nodup (l : List (Nat × Chunk))
    (f : Nat × Chunk → Option MergeItem)
    (hf : ∀ q it, f q = some it → it.idx = q.1)
    (hl : (l.map Prod.fst).Nodup) :
    ((l.filterMap f).map MergeItem.idx).Nodup := by
  induction l with
  | nil => simp
  | cons a rest ih =>
    rw [List.map_cons] at hl
    rw [List.filterMap_cons]
    cases hfa : f a with
    | none => exact ih (List.Nodup.of_cons hl)
    | some it =>
      rw [List.map_cons]
      refine List.Nodup.cons ?_ (ih (List.Nodup.of_cons hl))
      intro hmem
      rcases List.mem_map.mp hmem with ⟨it2, hit2, hidx⟩
      have h1 : it2.idx ∈ rest.map Prod.fst := filterMap_item_mem_fst hf hit2
      rw [hidx, hf a it hfa] at h1
      exact (List.nodup_cons.mp hl).1 h1

theorem merge_candidates_idx_nodup (mt : List String) (chunks : List Chunk)
    (target : Int) :
    ((merge_candidates mt chunks target).map MergeItem.idx).Nodup := by
  unfold merge_candidates
  refine filterMap_item_idx_nodup _ _
    (fun q it h => (cand_fn_spec mt target q it h).1) ?_
  rw [List.enum_map_fst]
  exact List.nodup_range _

/- Association list lookups -/

theorem lookup_eq_none_of_not_mem_fst {l : List (Nat × Chunk)} {i : Nat}
    (h : i ∉ l.map Prod.fst) : l.lookup i = none := by
  induction l with
  | nil => rfl
  | cons a rest ih =>
    rw [List.map_cons, List.mem_cons] at h
    push_neg at h
    rw [List.lookup_cons]
    have : (i == a.1) = false := by
      exact beq_eq_false_iff_ne.mpr h.1
    rw [this]
    exact ih h.2

theorem lookup_of_mem_of_nodup {l : List (Nat × Chunk)} {i : Nat} {c : Chunk}
    (hnd : (l.map Prod.fst).Nodup) (h : (i, c) ∈ l) : l.lookup i = some c := by
  induction l with
  | nil => cases h
  | cons a rest ih =>
    rw [List.map_cons] at hnd
    rw [List.lookup_cons]
    rcases List.mem_cons.mp h with rfl | hmem
    · simp
    · have hifst : i ∈ rest.map Prod.fst := List.mem_map_of_mem Prod.fst hmem
      have hne : i ≠ a.1 := by
        intro hcontra
        rw [hcontra] at hifst
        exact (List.nodup_cons.mp hnd).1 hifst
      rw [beq_eq_false_iff_ne.mpr hne]
      exact ih (List.Nodup.of_cons hnd) hmem

/- Preservation through updates -/

theorem write_bbox_id (c : Chunk) (b : BBox) : idStr (write_bbox c b) = idStr c := rfl

theorem write_bbox_page (c : Chunk) (b : BBox) : (write_bbox c b).page = c.page := rfl

theorem write_bbox_metadata (c : Chunk) (b : BBox) :
    (write_bbox c b).metadata = c.metadata := rfl

theorem excluded_update_id (p : MergeParams) (it : MergeItem) :
    idStr (excluded_update p it) = idStr it.ch := rfl

theorem excluded_update_page (p : MergeParams) (it : MergeItem) :
    (excluded_update p it).page = it.ch.page := rfl

theorem excluded_update_contribution (p : MergeParams) (it : MergeItem)
    (h : (it.ch.metadata.getD ({} : Metadata)).merged_count = none) :
    contribution (excluded_update p it) = 1 := by
  unfold contribution excluded_update write_bbox
  cases hm : it.ch.metadata with
  | none => simp [hm]
  | some m =>
    rw [hm] at h
    simp at h
    simp [h]

theorem group_update_spec (p : MergeParams) (k : Nat)
    (g : List MergeItem × BBox) (rep : MergeItem) (rest : List MergeItem)
    (hg : g.1 = rep :: rest) :
    (group_update p k g).1 = rep.idx ∧
      idStr (group_update p k g).2 = idStr rep.ch ∧
      (group_update p k g).2.page = rep.ch.page ∧
      (rest = [] → (group_update p k g).2.metadata = rep.ch.metadata) ∧
      (rest ≠ [] →
        ((group_update p k g).2.metadata.getD ({} : Metadata)).merged_count =
          some g.1.length) := by
  unfold group_update
  rw [hg]
  dsimp only
  by_cases hr : rest.isEmpty
  · rw [if_pos hr]
    rw [List.isEmpty_iff] at hr
    refine ⟨rfl, rfl, rfl, fun _ => rfl, fun hne => absurd hr hne⟩
  · rw [if_neg hr]
    rw [List.isEmpty_iff] at hr
    refine ⟨rfl, rfl, rfl, fun h => absurd h hr, fun _ => ?_⟩
    simp [write_bbox, hg]

theorem group_update_contribution_single (p : MergeParams) (k : Nat)
    (g : List MergeItem × BBox) (rep : MergeItem) (hg : g.1 = [rep])
    (h : (rep.ch.metadata.getD ({} : Metadata)).merged_count = none) :
    contribution (group_update p k g).2 = 1 := by
  have hs := (group_update_spec p k g rep [] hg).2.2.2.1 rfl
  unfold contribution
  rw [hs, h]
  rfl

/- Permutation decomposition -/

theorem filterMap_map_pair (l : List (Nat × Chunk))
    (f : Nat × Chunk → Option MergeItem)
    (hf : ∀ q it, f q = some it → (it.idx, it.ch) = q) :
    (l.filterMap f).map (fun it => (it.idx, it.ch)) =
      l.filter fun q => (f q).isSome := by
  induction l with
  | nil => rfl
  | cons a rest ih =>
    rw [List.filterMap_cons, List.filter_cons]
    cases hfa : f a with
    | none => simp [ih]
    | some it =>
      simp only [Option.isSome_some, if_pos]
      rw [List.map_cons, ih, hf a it hfa]

theorem partition_by_keys_perm (g : MergeItem → Nat) (ks : List Nat)
    (hnd : ks.Nodup) :
    ∀ l : List MergeItem, (∀ it ∈ l, g it ∈ ks) →
      (ks.flatMap fun k => l.filter fun it => g it == k).Perm l := by
  induction ks with
  | nil =>
    intro l hcov
    have : l = [] := List.eq_nil_iff_forall_not_mem.mpr fun it hit => by
      simpa using hcov it hit
    simp [this]
  | cons k ks ih =>
    intro l hcov
    rw [List.flatMap_cons]
    have hstep : ∀ k2 ∈ ks,
        (l.filter fun it => g it == k2) =
          ((l.filter fun it => !(g it == k)).filter fun it => g it == k2) := by
      intro k2 hk2
      rw [List.filter_filter]
      refine (List.filter_congr ?_).symm
      intro it hit
      rcases hbeq : (g it == k2) with _ | _
      · simp
      · have : g it = k2 := by simpa using hbeq
        have hne : g it ≠ k := by
          rw [this]
          intro hcontra
          rw [hcontra] at hk2
          exact (List.nodup_cons.mp hnd).1 hk2
        simp [hne]
    have hflat : (ks.flatMap fun k2 => l.filter fun it => g it == k2) =
        ks.flatMap fun k2 => (l.filter fun it => !(g it == k)).filter
          fun it => g it == k2 :=
      List.flatMap_congr hstep
    rw [hflat]
    have hperm := ih (List.Nodup.of_cons hnd) (l.filter fun it => !(g it == k)) ?_
    · exact (List.Perm.append_left _ hperm).trans (List.filter_append_perm _ l)
    · intro it hit
      rcases List.mem_filter.mp hit with ⟨hmem, hcond⟩
      have := hcov it hmem
      rcases List.mem_cons.mp this with hk | hk
      · exfalso
        rw [hk] at hcond
        simp at hcond
      · exact hk

theorem flatMap_perm_congr {α β : Type} (ks : List α) (f g : α → List β)
    (h : ∀ k ∈ ks, (f k).Perm (g k)) : (ks.flatMap f).Perm (ks.flatMap g) := by
  induction ks with
  | nil => rfl
  | cons k rest ih =>
    rw [List.flatMap_cons, List.flatMap_cons]
    exact (h k (List.mem_cons_self k rest)).append
      (ih fun k2 hk2 => h k2 (List.mem_cons_of_mem _ hk2))

theorem merge_colGroups_flatten_perm (p : MergeParams) (headers : List BBox)
    (mergeable : List MergeItem) :
    ((merge_colGroups p headers mergeable).flatMap fun kg => kg.2.1).Perm
      mergeable := by
  unfold merge_colGroups
  rw [List.flatMap_assoc]
  have hinner : ∀ k : Nat,
      (((form_groups p headers
        ((mergeable.filter fun it =>
          col_of (_cluster_by_x0 mergeable p.x_bin_tol) it.idx == k).mergeSort
          item_le)).map fun g => (k, g)).flatMap fun kg => kg.2.1) =
      (mergeable.filter fun it =>
        col_of (_cluster_by_x0 mergeable p.x_bin_tol) it.idx == k).mergeSort
        item_le := by
    intro k
    rw [List.flatMap_map]
    exact form_groups_flatten p headers _
  refine List.Perm.trans (flatMap_perm_congr _ _ _ ?_)
    (partition_by_keys_perm
      (fun it => col_of (_cluster_by_x0 mergeable p.x_bin_tol) it.idx) _ ?_ _ ?_)
  · intro k hk
    rw [hinner k]
    exact List.mergeSort_perm _ _
  · have hperm := List.mergeSort_perm
      ((mergeable.map fun it =>
        col_of (_cluster_by_x0 mergeable p.x_bin_tol) it.idx).dedup)
      (fun a b => decide (a ≤ b))
    exact hperm.nodup_iff.mpr (List.nodup_dedup _)
  · intro it hit
    have hperm := List.mergeSort_perm
      ((mergeable.map fun it =>
        col_of (_cluster_by_x0 mergeable p.x_bin_tol) it.idx).dedup)
      (fun a b => decide (a ≤ b))
    rw [hperm.mem_iff, List.mem_dedup]
    exact List.mem_map_of_mem _ hit

/- Sum and permutation helpers -/

theorem sum_map_filter {α : Type} (l : List α) (q : α → Bool) (f : α → Nat) :
    ((l.filter q).map f).sum = (l.map fun x => if q x then f x else 0).sum := by
  induction l with
  | nil => rfl
  | cons a rest ih =>
    rw [List.filter_cons, List.map_cons]
    by_cases hq : q a
    · rw [if_pos hq, if_pos hq, List.map_cons, List.sum_cons, List.sum_cons, ih]
    · rw [if_neg hq, if_neg hq, List.sum_cons, ih]
      simp

theorem sum_map_split {α : Type} (l : List α) (q : α → Bool) (f : α → Nat) :
    (l.map f).sum =
      ((l.filter q).map f).sum + ((l.filter fun x => !q x).map f).sum := by
  have hperm := List.filter_append_perm q l
  have := (hperm.map f).sum_eq
  rw [← this, List.map_append, List.sum_append]

theorem sum_map_congr {α : Type} {l : List α} {f g : α → Nat}
    (h : ∀ x ∈ l, f x = g x) : (l.map f).sum = (l.map g).sum := by
  rw [List.map_congr_left h]

theorem sum_flatMap_nat {γ : Type} (l : List γ) (f : γ → List Nat) :
    (l.flatMap f).sum = (l.map fun x => (f x).sum).sum := by
  induction l with
  | nil => rfl
  | cons a rest ih =>
    rw [List.flatMap_cons, List.sum_append, List.map_cons, List.sum_cons, ih]

theorem flatMap_split_perm {γ α : Type} (gs : List γ) (f g : γ → List α) :
    (gs.flatMap fun x => f x ++ g x).Perm (gs.flatMap f ++ gs.flatMap g) := by
  induction gs with
  | nil => rfl
  | cons a rest ih =>
    rw [List.flatMap_cons, List.flatMap_cons, List.flatMap_cons]
    refine List.Perm.trans (List.Perm.append_left _ ih) ?_
    rw [List.append_assoc, List.append_assoc]
    refine List.Perm.append_left _ ?_
    rw [← List.append_assoc]
    refine List.Perm.trans
      (List.Perm.append_right _ List.perm_append_comm) ?_
    rw [List.append_assoc]

/- Enum helpers -/

theorem mem_enum_pair_inj {l : List Chunk} {i : Nat} {a b : Chunk}
    (ha : (i, a) ∈ l.enum) (hb : (i, b) ∈ l.enum) : a = b := by
  rw [List.mk_mem_enum_iff_getElem?] at ha hb
  rw [ha] at hb
  exact Option.some_inj.mp hb

theorem mem_enum_snd_mem {l : List Chunk} {i : Nat} {a : Chunk}
    (ha : (i, a) ∈ l.enum) : a ∈ l := by
  rw [List.mk_mem_enum_iff_getElem?] at ha
  exact List.getElem?_mem ha

theorem enum_id_inj {chunks : List Chunk} (hids : (chunks.map idStr).Nodup)
    {i j : Nat} {a b : Chunk}
    (ha : (i, a) ∈ chunks.enum) (hb : (j, b) ∈ chunks.enum)
    (heq : idStr a = idStr b) : i = j ∧ a = b := by
  rw [List.mk_mem_enum_iff_getElem?] at ha hb
  rcases List.getElem?_eq_some.mp ha with ⟨hi, hai⟩
  rcases List.getElem?_eq_some.mp hb with ⟨hj, hbj⟩
  have hi2 : i < (chunks.map idStr).length := by simpa using hi
  have hj2 : j < (chunks.map idStr).length := by simpa using hj
  have hga : (chunks.map idStr).get ⟨i, hi2⟩ = idStr a := by
    rw [List.get_eq_getElem, List.getElem_map, hai]
  have hgb : (chunks.map idStr).get ⟨j, hj2⟩ = idStr b := by
    rw [List.get_eq_getElem, List.getElem_map, hbj]
  have hfin : (⟨i, hi2⟩ : Fin (chunks.map idStr).length) = ⟨j, hj2⟩ :=
    (List.Nodup.get_inj_iff hids).mp (by rw [hga, hgb]; exact heq)
  have hij : i = j := congrArg Fin.val hfin
  subst hij
  rw [ha] at hb
  exact ⟨rfl, Option.some_inj.mp hb⟩

/- Column group facts -/

theorem merge_colGroups_groups_nonempty (p : MergeParams) (headers : List BBox)
    (mergeable : List MergeItem) :
    ∀ kg ∈ merge_colGroups p headers mergeable, kg.2.1 ≠ [] := by
  intro kg hkg
  unfold merge_colGroups at hkg
  rcases List.mem_flatMap.mp hkg with ⟨k, hk, hmem⟩
  rcases List.mem_map.mp hmem with ⟨g, hg, rfl⟩
  exact form_groups_nonempty p headers _ g hg

theorem merge_colGroups_item_mem (p : MergeParams) (headers : List BBox)
    (mergeable : List MergeItem) :
    ∀ kg ∈ merge_colGroups p headers mergeable, ∀ it ∈ kg.2.1, it ∈ mergeable := by
  intro kg hkg it hit
  have hperm := merge_colGroups_flatten_perm p headers mergeable
  refine hperm.mem_iff.mp ?_
  exact List.mem_flatMap.mpr ⟨kg, hkg, hit⟩

theorem flatMap_take_one_eq_map_headI {gs : List (Nat × (List MergeItem × BBox))}
    (h : ∀ kg ∈ gs, kg.2.1 ≠ []) :
    (gs.flatMap fun kg => kg.2.1.take 1) = gs.map fun kg => kg.2.1.headI := by
  induction gs with
  | nil => rfl
  | cons kg rest ih =>
    rw [List.flatMap_cons, List.map_cons]
    rcases hne : kg.2.1 with _ | ⟨a, t⟩
    · exact absurd hne (h kg (List.mem_cons_self _ _))
    · rw [ih fun kg2 hkg2 => h kg2 (List.mem_cons_of_mem _ hkg2)]
      rfl

theorem headI_mem_take_one {kg : Nat × (List MergeItem × BBox)}
    (h : kg.2.1 ≠ []) : kg.2.1.headI ∈ kg.2.1.take 1 := by
  rcases hne : kg.2.1 with _ | ⟨a, t⟩
  · exact absurd hne h
  · simp [hne]

/- Reps and absorbed split -/

theorem flatten_split_perm (gs : List (Nat × (List MergeItem × BBox))) :
    (gs.flatMap fun kg => kg.2.1).Perm
      ((gs.flatMap fun kg => kg.2.1.take 1) ++ gs.flatMap fun kg => kg.2.1.drop 1) := by
  have heq : (gs.flatMap fun kg => kg.2.1) =
      gs.flatMap fun kg => kg.2.1.take 1 ++ kg.2.1.drop 1 := by
    refine List.flatMap_congr ?_
    intro kg _
    rw [List.take_append_drop]
  rw [heq]
  exact flatMap_split_perm gs _ _

/- Update list structure -/

theorem heads_sublist_flatten (gs : List (Nat × (List MergeItem × BBox)))
    (h : ∀ kg ∈ gs, kg.2.1 ≠ []) :
    List.Sublist (gs.map fun kg => kg.2.1.headI) (gs.flatMap fun kg => kg.2.1) := by
  induction gs with
  | nil => exact List.Sublist.refl _
  | cons kg rest ih =>
    rw [List.map_cons, List.flatMap_cons]
    rcases hne : kg.2.1 with _ | ⟨a, t⟩
    · exact absurd hne (h kg (List.mem_cons_self _ _))
    · have ih2 := ih fun kg2 hkg2 => h kg2 (List.mem_cons_of_mem _ hkg2)
      rw [List.headI_cons, List.cons_append]
      exact List.Sublist.cons₂ a (ih2.trans (List.sublist_append_right t _))

theorem cand_item_inj {cand : List MergeItem}
    (hnd : (cand.map MergeItem.idx).Nodup) {a b : MergeItem}
    (ha : a ∈ cand) (hb : b ∈ cand) (heq : a.idx = b.idx) : a = b :=
  List.inj_on_of_nodup_map hnd ha hb heq

theorem excluded_mergeable_disjoint (p : MergeParams) (headers : List BBox)
    {cand : List MergeItem} (hnd : (cand.map MergeItem.idx).Nodup)
    {a b : MergeItem} (ha : a ∈ merge_excluded p headers cand)
    (hb : b ∈ merge_mergeable p headers cand) : a.idx ≠ b.idx := by
  intro heq
  rcases List.mem_filter.mp ha with ⟨ha2, hpa⟩
  rcases List.mem_filter.mp hb with ⟨hb2, hpb⟩
  cases cand_item_inj hnd ha2 hb2 heq
  rw [hpa] at hpb
  simp at hpb

theorem mergeable_idx_nodup (p : MergeParams) (headers : List BBox)
    {cand : List MergeItem} (hnd : (cand.map MergeItem.idx).Nodup) :
    ((merge_mergeable p headers cand).map MergeItem.idx).Nodup :=
  List.Nodup.sublist (List.Sublist.map _ (List.filter_sublist cand)) hnd

theorem excluded_idx_nodup (p : MergeParams) (headers : List BBox)
    {cand : List MergeItem} (hnd : (cand.map MergeItem.idx).Nodup) :
    ((merge_excluded p headers cand).map MergeItem.idx).Nodup :=
  List.Nodup.sublist (List.Sublist.map _ (List.filter_sublist cand)) hnd

theorem flatten_idx_nodup (p : MergeParams) (headers : List BBox)
    {cand : List MergeItem} (hnd : (cand.map MergeItem.idx).Nodup) :
    (((merge_colGroups p headers (merge_mergeable p headers cand)).flatMap
      fun kg => kg.2.1).map MergeItem.idx).Nodup := by
  have hperm := (merge_colGroups_flatten_perm p headers
    (merge_mergeable p headers cand)).map MergeItem.idx
  exact hperm.nodup_iff.mpr (mergeable_idx_nodup p headers hnd)

theorem merge_updates_fst (p : MergeParams) (headers : List BBox)
    (cand : List MergeItem) :
    (merge_updates p headers cand).map Prod.fst =
      (merge_excluded p headers cand).map MergeItem.idx ++
        (merge_colGroups p headers (merge_mergeable p headers cand)).map
          fun kg => kg.2.1.headI.idx := by
  unfold merge_updates
  rw [List.map_append, List.map_map, List.map_map]
  congr 1
  refine List.map_congr_left ?_
  intro kg hkg
  have hne := merge_colGroups_groups_nonempty p headers _ kg hkg
  rcases hg : kg.2.1 with _ | ⟨rep, rest⟩
  · exact absurd hg hne
  · have := (group_update_spec p kg.1 kg.2 rep rest hg).1
    simp only [Function.comp_apply, this, hg]
    rfl

theorem merge_updates_fst_nodup (p : MergeParams) (headers : List BBox)
    {cand : List MergeItem} (hnd : (cand.map MergeItem.idx).Nodup) :
    ((merge_updates p headers cand).map Prod.fst).Nodup := by
  rw [merge_updates_fst]
  rw [List.nodup_append]
  refine ⟨excluded_idx_nodup p headers hnd, ?_, ?_⟩
  · have hsub := heads_sublist_flatten
      (merge_colGroups p headers (merge_mergeable p headers cand))
      (merge_colGroups_groups_nonempty p headers _)
    have := List.Sublist.map MergeItem.idx hsub
    rw [List.map_map] at this
    exact List.Nodup.sublist this (flatten_idx_nodup p headers hnd)
  · intro i hie hig
    rcases List.mem_map.mp hie with ⟨a, ha, rfl⟩
    rcases List.mem_map.mp hig with ⟨kg, hkg, hidx⟩
    have hne2 := merge_colGroups_groups_nonempty p headers _ kg hkg
    have hhead : kg.2.1.headI ∈ kg.2.1 := by
      rcases hg : kg.2.1 with _ | ⟨a, t⟩
      · exact absurd hg hne2
      · rw [List.headI_cons]
        exact List.mem_cons_self a t
    have hmem := merge_colGroups_item_mem p headers _ kg hkg _ hhead
    exact excluded_mergeable_disjoint p headers hnd ha hmem hidx.symm

theorem lookup_excluded (p : MergeParams) (headers : List BBox)
    {cand : List MergeItem} (hnd : (cand.map MergeItem.idx).Nodup)
    {it : MergeItem} (hit : it ∈ merge_excluded p headers cand) :
    (merge_updates p headers cand).lookup it.idx = some (excluded_update p it) :=
  lookup_of_mem_of_nodup (merge_updates_fst_nodup p headers hnd)
    (List.mem_append_left _ (List.mem_map_of_mem _ hit))

theorem lookup_group_rep (p : MergeParams) (headers : List BBox)
    {cand : List MergeItem} (hnd : (cand.map MergeItem.idx).Nodup)
    {kg : Nat × (List MergeItem × BBox)}
    (hkg : kg ∈ merge_colGroups p headers (merge_mergeable p headers cand))
    {rep : MergeItem} {rest : List MergeItem} (hg : kg.2.1 = rep :: rest) :
    (merge_updates p headers cand).lookup rep.idx =
      some (group_update p kg.1 kg.2).2 := by
  refine lookup_of_mem_of_nodup (merge_updates_fst_nodup p headers hnd) ?_
  refine List.mem_append_right _ ?_
  have hfst := (group_update_spec p kg.1 kg.2 rep rest hg).1
  have hpair : (rep.idx, (group_update p kg.1 kg.2).2) = group_update p kg.1 kg.2 := by
    rw [← hfst]
  rw [hpair]
  exact List.mem_map_of_mem _ hkg

theorem updates_fst_sources (p : MergeParams) (headers : List BBox)
    (cand : List MergeItem) {i : Nat}
    (hi : i ∈ (merge_updates p headers cand).map Prod.fst) :
    (∃ it ∈ merge_excluded p headers cand, it.idx = i) ∨
      (∃ kg ∈ merge_colGroups p headers (merge_mergeable p headers cand),
        kg.2.1.headI.idx = i) := by
  rw [merge_updates_fst] at hi
  rcases List.mem_append.mp hi with h | h
  · rcases List.mem_map.mp h with ⟨it, hit, rfl⟩
    exact Or.inl ⟨it, hit, rfl⟩
  · rcases List.mem_map.mp h with ⟨kg, hkg, rfl⟩
    exact Or.inr ⟨kg, hkg, rfl⟩

theorem mem_skips_elim (p : MergeParams) (headers : List BBox)
    (cand : List MergeItem) {s : String}
    (hs : s ∈ merge_skips p headers cand) :
    ∃ kg ∈ merge_colGroups p headers (merge_mergeable p headers cand),
      ∃ a ∈ kg.2.1.drop 1, s = idStr a.ch := by
  unfold merge_skips at hs
  rcases List.mem_flatMap.mp hs with ⟨kg, hkg, hmem⟩
  refine ⟨kg, hkg, ?_⟩
  unfold group_skips at hmem
  rcases hg : kg.2.1 with _ | ⟨rep, rest⟩
  · rw [hg] at hmem; cases hmem
  · rw [hg] at hmem
    dsimp only at hmem
    by_cases hr : rest.isEmpty
    · rw [if_pos hr] at hmem; cases hmem
    · rw [if_neg hr] at hmem
      rcases List.mem_map.mp hmem with ⟨a, ha, rfl⟩
      exact ⟨a, by simpa using ha, rfl⟩

theorem mem_skips_intro (p : MergeParams) (headers : List BBox)
    (cand : List MergeItem) {kg : Nat × (List MergeItem × BBox)}
    (hkg : kg ∈ merge_colGroups p headers (merge_mergeable p headers cand))
    {a : MergeItem} (ha : a ∈ kg.2.1.drop 1) :
    idStr a.ch ∈ merge_skips p headers cand := by
  unfold merge_skips
  refine List.mem_flatMap.mpr ⟨kg, hkg, ?_⟩
  unfold group_skips
  rcases hg : kg.2.1 with _ | ⟨rep, rest⟩
  · rw [hg] at ha; cases ha
  · rw [hg] at ha
    dsimp only
    simp only [List.drop_one, List.tail_cons] at ha
    have hr : rest.isEmpty = false := by
      rcases rest with _ | ⟨b, t⟩
      · cases ha
      · rfl
    rw [if_neg (by rw [hr]; exact Bool.false_ne_true)]
    exact List.mem_map_of_mem _ ha

/- Disjointness of representatives and absorbed items -/

theorem mble_sub_cand (p : MergeParams) (headers : List BBox)
    {cand : List MergeItem} {a : MergeItem}
    (ha : a ∈ merge_mergeable p headers cand) : a ∈ cand :=
  List.mem_of_mem_filter ha

theorem excl_sub_cand (p : MergeParams) (headers : List BBox)
    {cand : List MergeItem} {a : MergeItem}
    (ha : a ∈ merge_excluded p headers cand) : a ∈ cand :=
  List.mem_of_mem_filter ha

theorem not_both_excl_mble (p : MergeParams) (headers : List BBox)
    {cand : List MergeItem} {a : MergeItem}
    (ha : a ∈ merge_excluded p headers cand)
    (hb : a ∈ merge_mergeable p headers cand) : False := by
  have h1 := (List.mem_filter.mp ha).2
  have h2 := (List.mem_filter.mp hb).2
  rw [h1] at h2
  cases h2

theorem reps_abs_idx_disjoint (p : MergeParams) (headers : List BBox)
    {cand : List MergeItem} (hnd : (cand.map MergeItem.idx).Nodup) :
    ∀ kg ∈ merge_colGroups p headers (merge_mergeable p headers cand),
    ∀ kg2 ∈ merge_colGroups p headers (merge_mergeable p headers cand),
    ∀ a ∈ kg2.2.1.drop 1, kg.2.1.headI.idx ≠ a.idx := by
  intro kg hkg kg2 hkg2 a ha
  have hsplit := (flatten_split_perm
    (merge_colGroups p headers (merge_mergeable p headers cand))).map MergeItem.idx
  have hnod := (hsplit.nodup_iff).mp (flatten_idx_nodup p headers hnd)
  rw [List.map_append] at hnod
  have hdisj := (List.nodup_append.mp hnod).2.2
  intro heq
  have hm1 : kg.2.1.headI.idx ∈
      ((merge_colGroups p headers (merge_mergeable p headers cand)).flatMap
        fun kg => kg.2.1.take 1).map MergeItem.idx := by
    refine List.mem_map.mpr ⟨kg.2.1.headI, ?_, rfl⟩
    refine List.mem_flatMap.mpr ⟨kg, hkg, ?_⟩
    exact headI_mem_take_one (merge_colGroups_groups_nonempty p headers _ kg hkg)
  have hm2 : kg.2.1.headI.idx ∈
      ((merge_colGroups p headers (merge_mergeable p headers cand)).flatMap
        fun kg => kg.2.1.drop 1).map MergeItem.idx := by
    rw [heq]
    exact List.mem_map.mpr ⟨a, List.mem_flatMap.mpr ⟨kg2, hkg2, ha⟩, rfl⟩
  exact hdisj hm1 hm2

theorem lookup_absorbed_none (p : MergeParams) (headers : List BBox)
    {cand : List MergeItem} (hnd : (cand.map MergeItem.idx).Nodup)
    {kg : Nat × (List MergeItem × BBox)}
    (hkg : kg ∈ merge_colGroups p headers (merge_mergeable p headers cand))
    {a : MergeItem} (ha : a ∈ kg.2.1.drop 1) :
    (merge_updates p headers cand).lookup a.idx = none := by
  refine lookup_eq_none_of_not_mem_fst ?_
  intro hmem
  have hamble : a ∈ merge_mergeable p headers cand :=
    merge_colGroups_item_mem p headers _ kg hkg a (List.mem_of_mem_drop ha)
  rcases updates_fst_sources p headers cand hmem with ⟨it, hit, hidx⟩ | ⟨kg2, hkg2, hidx⟩
  · cases cand_item_inj hnd (excl_sub_cand p headers hit)
      (mble_sub_cand p headers hamble) hidx
    exact not_both_excl_mble p headers hit hamble
  · exact reps_abs_idx_disjoint p headers hnd kg2 hkg2 kg hkg a ha hidx

/- Weight evaluations -/

theorem merge_keep_iff (p : MergeParams) (headers : List BBox)
    (cand : List MergeItem) (c : Chunk) :
    merge_keep p headers cand c = true ↔
      idStr c ∉ merge_skips p headers cand := by
  unfold merge_keep
  rw [Bool.not_eq_true']
  simp [List.contains_iff_exists_mem_beq]

theorem skip_source_item (p : MergeParams) (headers : List BBox)
    {cand : List MergeItem} {s : String}
    (hs : s ∈ merge_skips p headers cand) :
    ∃ a ∈ merge_mergeable p headers cand, s = idStr a.ch := by
  rcases mem_skips_elim p headers cand hs with ⟨kg, hkg, a, ha, rfl⟩
  exact ⟨a, merge_colGroups_item_mem p headers _ kg hkg a
    (List.mem_of_mem_drop ha), rfl⟩

theorem apply_nonCand (chunks : List Chunk) (target : Int) (p : MergeParams)
    {i : Nat} {c : Chunk} (hmem : (i, c) ∈ chunks.enum)
    (hnc : (cand_fn MERGE_TYPES target (i, c)).isSome = false) :
    merge_apply p (header_boxes_of chunks target)
      (merge_candidates MERGE_TYPES chunks target) (i, c) = c := by
  unfold merge_apply
  rw [lookup_eq_none_of_not_mem_fst]
  · rfl
  · intro hconta
    have hsrc := updates_fst_sources p (header_boxes_of chunks target)
      (merge_candidates MERGE_TYPES chunks target) hconta
    have hitcand : ∃ it ∈ merge_candidates MERGE_TYPES chunks target,
        it.idx = i := by
      rcases hsrc with ⟨it, hit, hidx⟩ | ⟨kg, hkg, hidx⟩
      · exact ⟨it, excl_sub_cand p _ hit, hidx⟩
      · refine ⟨kg.2.1.headI, ?_, hidx⟩
        refine mble_sub_cand p _ (merge_colGroups_item_mem p _ _ kg hkg _ ?_)
        have hne := merge_colGroups_groups_nonempty p _ _ kg hkg
        rcases hg : kg.2.1 with _ | ⟨a, t⟩
        · exact absurd hg hne
        · rw [List.headI_cons]
          exact List.mem_cons_self a t
    rcases hitcand with ⟨it, hit, hidx⟩
    rcases merge_candidates_mem hit with ⟨henum, _, _, _, hbox⟩
    rw [hidx] at henum
    have hc : it.ch = c := mem_enum_pair_inj henum hmem
    rcases List.mem_filterMap.mp hit with ⟨q, hq, heq⟩
    rcases cand_fn_spec MERGE_TYPES target q it heq with ⟨h1, h2, _, _, _, _⟩
    have hqic : q = (i, c) := by
      rcases q with ⟨qi, qc⟩
      have hh : it.idx = qi := h1
      have h2c : it.ch = qc := h2
      rw [hidx] at hh
      rw [hc] at h2c
      rw [← hh, ← h2c]
    rw [hqic] at heq
    rw [heq] at hnc
    cases hnc

theorem keep_nonCand (chunks : List Chunk) (target : Int) (p : MergeParams)
    (hids : (chunks.map idStr).Nodup)
    {i : Nat} {c : Chunk} (hmem : (i, c) ∈ chunks.enum)
    (hnc : (cand_fn MERGE_TYPES target (i, c)).isSome = false) :
    merge_keep p (header_boxes_of chunks target)
      (merge_candidates MERGE_TYPES chunks target) c = true := by
  rw [merge_keep_iff]
  intro hsk
  rcases skip_source_item p _ hsk with ⟨a, hamble, hsid⟩
  have hacand := mble_sub_cand p _ hamble
  rcases merge_candidates_mem hacand with ⟨henum, _, _, _, _⟩
  rcases enum_id_inj hids henum hmem hsid.symm with ⟨hij, hcc⟩
  rcases List.mem_filterMap.mp hacand with ⟨q, hq, heq⟩
  rcases cand_fn_spec MERGE_TYPES target q a heq with ⟨h1, h2, _, _, _, _⟩
  have hqic : q = (i, c) := by
    rcases q with ⟨qi, qc⟩
    have hh1 : a.idx = qi := h1
    have hh2 : a.ch = qc := h2
    rw [hij] at hh1
    rw [hcc] at hh2
    rw [← hh1, ← hh2]
  rw [hqic] at heq
  rw [heq] at hnc
  cases hnc

theorem weight_nonCand (chunks : List Chunk) (target : Int) (p : MergeParams)
    (hids : (chunks.map idStr).Nodup)
    (hclean : ∀ c ∈ chunks, (c.metadata.getD ({} : Metadata)).merged_count = none)
    {i : Nat} {c : Chunk} (hmem : (i, c) ∈ chunks.enum)
    (hnc : (cand_fn MERGE_TYPES target (i, c)).isSome = false) :
    merge_weight p (header_boxes_of chunks target)
        (merge_candidates MERGE_TYPES chunks target) target (i, c) =
      if page_matches c target then 1 else 0 := by
  have happly := apply_nonCand chunks target p hmem hnc
  have hkeep := keep_nonCand chunks target p hids hmem hnc
  unfold merge_weight
  rw [happly, hkeep]
  have hcontrib : contribution c = 1 := by
    unfold contribution
    rw [hclean c (mem_enum_snd_mem hmem)]
    rfl
  rw [hcontrib]
  by_cases hp : page_matches c target
  · rw [if_pos hp]
    simp [hp]
  · rw [if_neg hp]
    simp only [Bool.true_and]
    rw [if_neg]
    intro hcontra
    rw [Bool.not_eq_true] at hp
    rw [hp] at hcontra
    cases hcontra

theorem cand_id_inj (chunks : List Chunk) (target : Int)
    (hids : (chunks.map idStr).Nodup) {a b : MergeItem}
    (ha : a ∈ merge_candidates MERGE_TYPES chunks target)
    (hb : b ∈ merge_candidates MERGE_TYPES chunks target)
    (heq : idStr a.ch = idStr b.ch) : a = b := by
  rcases merge_candidates_mem ha with ⟨hea, _, _, _, _⟩
  rcases merge_candidates_mem hb with ⟨heb, _, _, _, _⟩
  rcases enum_id_inj hids hea heb heq with ⟨hij, _⟩
  exact cand_item_inj (merge_candidates_idx_nodup MERGE_TYPES chunks target)
    ha hb hij

theorem weight_excluded (chunks : List Chunk) (target : Int) (p : MergeParams)
    (hids : (chunks.map idStr).Nodup)
    (hclean : ∀ c ∈ chunks, (c.metadata.getD ({} : Metadata)).merged_count = none)
    {it : MergeItem}
    (hit : it ∈ merge_excluded p (header_boxes_of chunks target)
      (merge_candidates MERGE_TYPES chunks target)) :
    merge_weight p (header_boxes_of chunks target)
        (merge_candidates MERGE_TYPES chunks target) target (it.idx, it.ch) = 1 := by
  have hnd := merge_candidates_idx_nodup MERGE_TYPES chunks target
  have hcand := excl_sub_cand p _ hit
  rcases merge_candidates_mem hcand with ⟨henum, hpage, _, _, _⟩
  have happly : merge_apply p (header_boxes_of chunks target)
      (merge_candidates MERGE_TYPES chunks target) (it.idx, it.ch) =
      excluded_update p it := by
    unfold merge_apply
    rw [lookup_excluded p _ hnd hit]
    rfl
  have hkeep : merge_keep p (header_boxes_of chunks target)
      (merge_candidates MERGE_TYPES chunks target) (excluded_update p it) = true := by
    rw [merge_keep_iff, excluded_update_id]
    intro hsk
    rcases skip_source_item p _ hsk with ⟨a, hamble, hsid⟩
    cases cand_id_inj chunks target hids (mble_sub_cand p _ hamble) hcand hsid.symm
    exact not_both_excl_mble p _ hit hamble
  unfold merge_weight
  rw [happly, hkeep]
  have hpage2 : page_matches (excluded_update p it) target = true := by
    have := excluded_update_page p it
    unfold page_matches at hpage ⊢
    rw [this]
    exact hpage
  rw [hpage2]
  simp only [Bool.and_self, if_true]
  exact excluded_update_contribution p it
    (hclean it.ch (mem_enum_snd_mem henum))

theorem weight_rep (chunks : List Chunk) (target : Int) (p : MergeParams)
    (hids : (chunks.map idStr).Nodup)
    (hclean : ∀ c ∈ chunks, (c.metadata.getD ({} : Metadata)).merged_count = none)
    {kg : Nat × (List MergeItem × BBox)}
    (hkg : kg ∈ merge_colGroups p (header_boxes_of chunks target)
      (merge_mergeable p (header_boxes_of chunks target)
        (merge_candidates MERGE_TYPES chunks target)))
    {rep : MergeItem} {rest : List MergeItem} (hg : kg.2.1 = rep :: rest) :
    merge_weight p (header_boxes_of chunks target)
        (merge_candidates MERGE_TYPES chunks target) target (rep.idx, rep.ch) =
      kg.2.1.length := by
  have hnd := merge_candidates_idx_nodup MERGE_TYPES chunks target
  have hrepmem : rep ∈ kg.2.1 := by rw [hg]; exact List.mem_cons_self _ _
  have hmble := merge_colGroups_item_mem p _ _ kg hkg rep hrepmem
  have hcand := mble_sub_cand p _ hmble
  rcases merge_candidates_mem hcand with ⟨henum, hpage, _, _, _⟩
  rcases group_update_spec p kg.1 kg.2 rep rest hg with
    ⟨hfst, hid, hpg, hmeta1, hmeta2⟩
  have happly : merge_apply p (header_boxes_of chunks target)
      (merge_candidates MERGE_TYPES chunks target) (rep.idx, rep.ch) =
      (group_update p kg.1 kg.2).2 := by
    unfold merge_apply
    rw [lookup_group_rep p _ hnd hkg hg]
    rfl
  have hkeep : merge_keep p (header_boxes_of chunks target)
      (merge_candidates MERGE_TYPES chunks target)
      (group_update p kg.1 kg.2).2 = true := by
    rw [merge_keep_iff, hid]
    intro hsk
    rcases mem_skips_elim p _ _ hsk with ⟨kg2, hkg2, a, ha, hsid⟩
    have hamble := merge_colGroups_item_mem p _ _ kg2 hkg2 a
      (List.mem_of_mem_drop ha)
    cases cand_id_inj chunks target hids (mble_sub_cand p _ hamble) hcand hsid.symm
    refine reps_abs_idx_disjoint p _ hnd kg hkg kg2 hkg2 _ ha ?_
    rw [hg, List.headI_cons]
  have hpage2 : page_matches (group_update p kg.1 kg.2).2 target = true := by
    unfold page_matches at hpage ⊢
    rw [hpg]
    exact hpage
  unfold merge_weight
  rw [happly, hkeep, hpage2]
  simp only [Bool.and_self, if_true]
  rcases hrest : rest with _ | ⟨b, t⟩
  · rw [hrest] at hg
    have := group_update_contribution_single p kg.1 kg.2 rep hg
      (hclean rep.ch (mem_enum_snd_mem henum))
    rw [this, hg]
    rfl
  · have hne : rest ≠ [] := by rw [hrest]; exact List.cons_ne_nil b t
    have := hmeta2 hne
    unfold contribution
    rw [this]
    rfl

theorem weight_absorbed (chunks : List Chunk) (target : Int) (p : MergeParams)
    (hids : (chunks.map idStr).Nodup)
    {kg : Nat × (List MergeItem × BBox)}
    (hkg : kg ∈ merge_colGroups p (header_boxes_of chunks target)
      (merge_mergeable p (header_boxes_of chunks target)
        (merge_candidates MERGE_TYPES chunks target)))
    {a : MergeItem} (ha : a ∈ kg.2.1.drop 1) :
    merge_weight p (header_boxes_of chunks target)
        (merge_candidates MERGE_TYPES chunks target) target (a.idx, a.ch) = 0 := by
  have hnd := merge_candidates_idx_nodup MERGE_TYPES chunks target
  have happly : merge_apply p (header_boxes_of chunks target)
      (merge_candidates MERGE_TYPES chunks target) (a.idx, a.ch) = a.ch := by
    unfold merge_apply
    rw [lookup_absorbed_none p _ hnd hkg ha]
    rfl
  have hkeep : merge_keep p (header_boxes_of chunks target)
      (merge_candidates MERGE_TYPES chunks target) a.ch = false := by
    rw [← Bool.not_eq_true, merge_keep_iff]
    intro hcontra
    exact hcontra (mem_skips_intro p _ _ hkg ha)
  unfold merge_weight
  rw [happly, hkeep]
  rfl

theorem sum_map_one {α : Type} (l : List α) :
    (l.map fun _ => (1 : Nat)).sum = l.length := by
  induction l with
  | nil => rfl
  | cons a rest ih => simp [ih, Nat.add_comm]

theorem cand_fn_pair (mt : List String) (target : Int) :
    ∀ (q : Nat × Chunk) (it : MergeItem), cand_fn mt target q = some it →
      (it.idx, it.ch) = q := by
  intro q it h
  rcases cand_fn_spec mt target q it h with ⟨h1, h2, _⟩
  rcases q with ⟨i, c⟩
  rw [show it.idx = i from h1, show it.ch = c from h2]

/-- C3: no-loss guarantee of the merge stage.  For every input collection
with distinct fragment ids and no pre-existing merged_count tags, summing
each output fragment's contribution on the target page (its merged_count
when tagged as a merged group representative, else 1) recovers exactly the
number of input fragments on that page: merging only re-groups fragments,
it never loses or duplicates one. -/
theorem c3_no_loss (chunks : List Chunk) (target : Int) (p : MergeParams)
    (hids : (chunks.map idStr).Nodup)
    (hclean : ∀ c ∈ chunks, (c.metadata.getD ({} : Metadata)).merged_count = none) :
    (((merge_note_fragments chunks target p).1.filter fun c =>
        page_matches c target).map contribution).sum =
      (chunks.filter fun c => page_matches c target).length := by
  have hnd := merge_candidates_idx_nodup MERGE_TYPES chunks target
  -- Left side as a sum of weights over the enumerated input
  have hout : (merge_note_fragments chunks target p).1 =
      (chunks.enum.map (merge_apply p (header_boxes_of chunks target)
        (merge_candidates MERGE_TYPES chunks target))).filter
        (merge_keep p (header_boxes_of chunks target)
          (merge_candidates MERGE_TYPES chunks target)) := rfl
  rw [hout]
  rw [List.filter_filter]
  rw [sum_map_filter]
  rw [List.map_map]
  have hW : ((fun c => if (page_matches c target &&
        merge_keep p (header_boxes_of chunks target)
          (merge_candidates MERGE_TYPES chunks target) c) = true then
          contribution c else 0) ∘
        merge_apply p (header_boxes_of chunks target)
          (merge_candidates MERGE_TYPES chunks target)) =
      fun ic => if (merge_keep p (header_boxes_of chunks target)
          (merge_candidates MERGE_TYPES chunks target)
          (merge_apply p (header_boxes_of chunks target)
            (merge_candidates MERGE_TYPES chunks target) ic) &&
          page_matches (merge_apply p (header_boxes_of chunks target)
            (merge_candidates MERGE_TYPES chunks target) ic) target) = true then
          contribution (merge_apply p (header_boxes_of chunks target)
            (merge_candidates MERGE_TYPES chunks target) ic) else 0 := by
    funext ic
    simp only [Function.comp_apply, Bool.and_comm]
  rw [hW]
  have hWw : (fun ic => if (merge_keep p (header_boxes_of chunks target)
          (merge_candidates MERGE_TYPES chunks target)
          (merge_apply p (header_boxes_of chunks target)
            (merge_candidates MERGE_TYPES chunks target) ic) &&
          page_matches (merge_apply p (header_boxes_of chunks target)
            (merge_candidates MERGE_TYPES chunks target) ic) target) = true then
          contribution (merge_apply p (header_boxes_of chunks target)
            (merge_candidates MERGE_TYPES chunks target) ic) else 0) =
      merge_weight p (header_boxes_of chunks target)
        (merge_candidates MERGE_TYPES chunks target) target := rfl
  rw [hWw]
  -- Split the enumerated input into candidates and the rest
  rw [sum_map_split chunks.enum (fun ic => (cand_fn MERGE_TYPES target ic).isSome)]
  -- Candidate half
  have hcandfilter : chunks.enum.filter
      (fun ic => (cand_fn MERGE_TYPES target ic).isSome) =
      (merge_candidates MERGE_TYPES chunks target).map fun it => (it.idx, it.ch) := by
    rw [← filterMap_map_pair chunks.enum (cand_fn MERGE_TYPES target)
      (cand_fn_pair MERGE_TYPES target)]
    rfl
  rw [hcandfilter, List.map_map]
  -- Split the candidates into excluded and mergeable
  rw [sum_map_split (merge_candidates MERGE_TYPES chunks target)
    (excluded_pred p (header_boxes_of chunks target))]
  -- Excluded candidates each weigh 1
  have hexc : (((merge_candidates MERGE_TYPES chunks target).filter
      (excluded_pred p (header_boxes_of chunks target))).map
        (merge_weight p (header_boxes_of chunks target)
          (merge_candidates MERGE_TYPES chunks target) target ∘
          fun it => (it.idx, it.ch))).sum =
      (merge_excluded p (header_boxes_of chunks target)
        (merge_candidates MERGE_TYPES chunks target)).length := by
    have hcongr : ∀ it ∈ (merge_candidates MERGE_TYPES chunks target).filter
        (excluded_pred p (header_boxes_of chunks target)),
        (merge_weight p (header_boxes_of chunks target)
          (merge_candidates MERGE_TYPES chunks target) target ∘
          fun it => (it.idx, it.ch)) it = (fun _ => 1) it := by
      intro it hit
      exact weight_excluded chunks target p hids hclean hit
    rw [sum_map_congr hcongr, sum_map_one]
    rfl
  rw [hexc]
  -- Mergeable candidates: transfer along the column-group partition
  have hpermflat := merge_colGroups_flatten_perm p (header_boxes_of chunks target)
    (merge_mergeable p (header_boxes_of chunks target)
      (merge_candidates MERGE_TYPES chunks target))
  have hmble : (((merge_candidates MERGE_TYPES chunks target).filter fun it =>
      !excluded_pred p (header_boxes_of chunks target) it).map
        (merge_weight p (header_boxes_of chunks target)
          (merge_candidates MERGE_TYPES chunks target) target ∘
          fun it => (it.idx, it.ch))).sum =
      (merge_mergeable p (header_boxes_of chunks target)
        (merge_candidates MERGE_TYPES chunks target)).length := by
    have hstep1 : (((merge_colGroups p (header_boxes_of chunks target)
        (merge_mergeable p (header_boxes_of chunks target)
          (merge_candidates MERGE_TYPES chunks target))).flatMap
        fun kg => kg.2.1).map
          (merge_weight p (header_boxes_of chunks target)
            (merge_candidates MERGE_TYPES chunks target) target ∘
            fun it => (it.idx, it.ch))).sum =
        (((merge_candidates MERGE_TYPES chunks target).filter fun it =>
          !excluded_pred p (header_boxes_of chunks target) it).map
            (merge_weight p (header_boxes_of chunks target)
              (merge_candidates MERGE_TYPES chunks target) target ∘
              fun it => (it.idx, it.ch))).sum :=
      (hpermflat.map _).sum_eq
    rw [← hstep1]
    rw [List.map_flatMap, sum_flatMap_nat]
    have hgrp : ∀ kg ∈ merge_colGroups p (header_boxes_of chunks target)
        (merge_mergeable p (header_boxes_of chunks target)
          (merge_candidates MERGE_TYPES chunks target)),
        (fun kg2 => ((kg2.2.1.map
          (merge_weight p (header_boxes_of chunks target)
            (merge_candidates MERGE_TYPES chunks target) target ∘
            fun it => (it.idx, it.ch))).sum)) kg =
        (fun kg2 => kg2.2.1.length) kg := by
      intro kg hkg
      have hne := merge_colGroups_groups_nonempty p _ _ kg hkg
      rcases hg : kg.2.1 with _ | ⟨rep, rest⟩
      · exact absurd hg hne
      · simp only
        rw [hg, List.map_cons, List.sum_cons]
        have hrep := weight_rep chunks target p hids hclean hkg hg
        have habs : ∀ a ∈ rest,
            (merge_weight p (header_boxes_of chunks target)
              (merge_candidates MERGE_TYPES chunks target) target ∘
              fun it => (it.idx, it.ch)) a = (fun _ => 0) a := by
          intro a ha
          refine weight_absorbed chunks target p hids hkg ?_
          rw [hg]
          simpa using ha
        rw [sum_map_congr habs]
        have hzero : (rest.map fun _ => 0).sum = 0 := by simp
        rw [hzero]
        simp only [Function.comp_apply]
        rw [hrep, hg]
        simp
    rw [sum_map_congr hgrp]
    -- total group sizes give the mergeable count
    have hlen : ((merge_colGroups p (header_boxes_of chunks target)
        (merge_mergeable p (header_boxes_of chunks target)
          (merge_candidates MERGE_TYPES chunks target))).map
          fun kg2 => kg2.2.1.length).sum =
        (merge_mergeable p (header_boxes_of chunks target)
          (merge_candidates MERGE_TYPES chunks target)).length := by
      rw [← hpermflat.length_eq]
      rw [← sum_map_one (((merge_colGroups p (header_boxes_of chunks target)
        (merge_mergeable p (header_boxes_of chunks target)
          (merge_candidates MERGE_TYPES chunks target))).flatMap
        fun kg => kg.2.1))]
      rw [List.map_flatMap, sum_flatMap_nat]
      refine sum_map_congr ?_
      intro kg _
      rw [sum_map_one]
    exact hlen
  rw [hmble]
  -- The non-candidates each weigh 1 exactly on the target page
  have hnon : ((chunks.enum.filter fun ic =>
      !(cand_fn MERGE_TYPES target ic).isSome).map
        (merge_weight p (header_boxes_of chunks target)
          (merge_candidates MERGE_TYPES chunks target) target)).sum =
      (((chunks.enum.filter fun ic => !(cand_fn MERGE_TYPES target ic).isSome)).filter
        fun ic => page_matches ic.2 target).length := by
    have hcongr : ∀ ic ∈ chunks.enum.filter fun ic =>
        !(cand_fn MERGE_TYPES target ic).isSome,
        merge_weight p (header_boxes_of chunks target)
          (merge_candidates MERGE_TYPES chunks target) target ic =
        (fun ic2 => if page_matches ic2.2 target then 1 else 0) ic := by
      rintro ⟨i, c⟩ hic
      have hmem := List.mem_of_mem_filter hic
      have hcond := List.of_mem_filter hic
      rw [Bool.not_eq_true'] at hcond
      exact weight_nonCand chunks target p hids hclean hmem hcond
    rw [sum_map_congr hcongr]
    rw [← sum_map_filter]
    rw [sum_map_one]
  rw [hnon]
  -- The right-hand side splits the same way
  have hchunks : (chunks.filter fun c => page_matches c target) =
      ((chunks.enum.map Prod.snd).filter fun c => page_matches c target) := by
    rw [List.enum_map_snd]
  rw [hchunks]
  rw [List.filter_map]
  rw [List.length_map]
  have hsplit := (List.filter_append_perm
    (fun ic => (cand_fn MERGE_TYPES target ic).isSome) chunks.enum).symm
  have hsplit2 := (hsplit.filter
    ((fun c => page_matches c target) ∘ Prod.snd)).length_eq
  rw [hsplit2, List.filter_append, List.length_append]
  have hcandpage : ((chunks.enum.filter fun ic =>
      (cand_fn MERGE_TYPES target ic).isSome).filter
        ((fun c => page_matches c target) ∘ Prod.snd)).length =
      (merge_candidates MERGE_TYPES chunks target).length := by
    rw [hcandfilter]
    have hall : ∀ q ∈ (merge_candidates MERGE_TYPES chunks target).map
        fun it => (it.idx, it.ch),
        ((fun c => page_matches c target) ∘ Prod.snd) q = true := by
      intro q hq
      rcases List.mem_map.mp hq with ⟨it, hit, rfl⟩
      exact (merge_candidates_mem hit).2.1
    rw [List.filter_eq_self.mpr hall, List.length_map]
  rw [hcandpage]
  have hlensplit : (merge_candidates MERGE_TYPES chunks target).length =
      (merge_excluded p (header_boxes_of chunks target)
        (merge_candidates MERGE_TYPES chunks target)).length +
      (merge_mergeable p (header_boxes_of chunks target)
        (merge_candidates MERGE_TYPES chunks target)).length := by
    have := (List.filter_append_perm
      (excluded_pred p (header_boxes_of chunks target))
      (merge_candidates MERGE_TYPES chunks target)).length_eq
    rw [List.length_append] at this
    exact this.symm
  rw [hlensplit]
  rfl

unseal Rat.sub Rat.add Rat.mul Rat.inv List.merge List.mergeSort in
/-- Witness for c3_no_loss at a concrete input on which a merge really
happens: two stacked notes fuse into one representative of contribution 2
and the header keeps contribution 1, totalling the three input fragments
of the page. -/
theorem c3_no_loss_witness :
    (([mergeCexNoteA, mergeCexNoteB, mergeCexHeader].map idStr).Nodup ∧
      ∀ c ∈ [mergeCexNoteA, mergeCexNoteB, mergeCexHeader],
        (c.metadata.getD ({} : Metadata)).merged_count = none) ∧
      (((merge_note_fragments [mergeCexNoteA, mergeCexNoteB, mergeCexHeader] 3
          defaultMergeParams).1.filter fun c => page_matches c 3).map
        contribution).sum =
        ([mergeCexNoteA, mergeCexNoteB, mergeCexHeader].filter fun c =>
          page_matches c 3).length :=
  ⟨⟨by decide, by decide⟩,
    c3_no_loss [mergeCexNoteA, mergeCexNoteB, mergeCexHeader] 3
      defaultMergeParams (by decide) (by decide)⟩

/-- C2 (amended): the merger's start condition is not mere non-header
status; a fragment only becomes a merge candidate when its type is in
MERGE_TYPES (just note_group).  Every fragment of any other type — header
or not, on the page or not — passes through the merger unchanged: it is
still a member of the output collection. -/
theorem c2_merger_start_condition_amended (chunks : List Chunk)
    (target : Int) (p : MergeParams) (hids : (chunks.map idStr).Nodup) :
    ∀ c ∈ chunks, MERGE_TYPES.contains (type_str c) = false →
      c ∈ (merge_note_fragments chunks target p).1 := by
  intro c hc htype
  rcases List.mem_iff_getElem?.mp hc with ⟨i, hi⟩
  have hmem : (i, c) ∈ chunks.enum := List.mk_mem_enum_iff_getElem?.mpr hi
  have hnc : (cand_fn MERGE_TYPES target (i, c)).isSome = false := by
    unfold cand_fn
    rw [if_neg]
    · rfl
    · intro hcond
      rw [Bool.and_eq_true, Bool.and_eq_true] at hcond
      rw [htype] at hcond
      exact Bool.false_ne_true hcond.2
  have hout : (merge_note_fragments chunks target p).1 =
      (chunks.enum.map (merge_apply p (header_boxes_of chunks target)
        (merge_candidates MERGE_TYPES chunks target))).filter
      (merge_keep p (header_boxes_of chunks target)
        (merge_candidates MERGE_TYPES chunks target)) := rfl
  rw [hout]
  refine List.mem_filter.mpr ⟨?_, ?_⟩
  · exact List.mem_map.mpr ⟨(i, c), hmem, apply_nonCand chunks target p hmem hnc⟩
  · exact keep_nonCand chunks target p hids hmem hnc

unseal Rat.sub Rat.add Rat.mul Rat.inv List.merge List.mergeSort in
/-- Witness for c2_merger_start_condition_amended: the concrete text_line
fragment of the counterexample, whose type is outside MERGE_TYPES, is a
member of the merge output. -/
theorem c2_merger_start_condition_amended_witness :
    (([textLineA, textLineB].map idStr).Nodup ∧ textLineA ∈ [textLineA, textLineB] ∧
        MERGE_TYPES.contains (type_str textLineA) = false) ∧
      textLineA ∈ (merge_note_fragments [textLineA, textLineB] 3
        defaultMergeParams).1 :=
  ⟨⟨by decide, by decide, by decide⟩,
    c2_merger_start_condition_amended [textLineA, textLineB] 3
      defaultMergeParams (by decide) textLineA (by decide) (by decide)⟩

theorem qabs_of_nonneg {a : ℚ} (h : 0 ≤ a) : qabs a = a := by
  unfold qabs
  rw [if_neg (not_lt.mpr h)]

theorem mean_of_singleton (x : ℚ) : mean_of [x] = x := by
  unfold mean_of
  rw [qdiv_eq_div]
  simp

theorem mean_le_of_forall_le {xs : List ℚ} {m : ℚ} (hne : xs ≠ [])
    (h : ∀ x ∈ xs, x ≤ m) : mean_of xs ≤ m := by
  unfold mean_of
  rw [qdiv_eq_div]
  have hlen : (0 : ℚ) < (xs.length : ℚ) := by
    have : 0 < xs.length := List.length_pos.mpr hne
    exact_mod_cast this
  rw [div_le_iff hlen]
  have := List.sum_le_card_nsmul xs m h
  simpa [nsmul_eq_mul, mul_comm] using this

theorem le_mean_of_forall_le {xs : List ℚ} {m : ℚ} (hne : xs ≠ [])
    (h : ∀ x ∈ xs, m ≤ x) : m ≤ mean_of xs := by
  unfold mean_of
  rw [qdiv_eq_div]
  have hlen : (0 : ℚ) < (xs.length : ℚ) := by
    have : 0 < xs.length := List.length_pos.mpr hne
    exact_mod_cast this
  rw [le_div_iff hlen]
  have := List.card_nsmul_le_sum xs m h
  simpa [nsmul_eq_mul, mul_comm] using this

theorem mean_mono {xs ys : List ℚ} (hx : xs ≠ []) (hy : ys ≠ [])
    (h : ∀ x ∈ xs, ∀ y ∈ ys, x ≤ y) : mean_of xs ≤ mean_of ys := by
  refine mean_le_of_forall_le hx ?_
  intro x hxm
  exact le_mean_of_forall_le hy (h x hxm)

theorem running_mean {vs : List ℚ} (hne : vs ≠ []) (x : ℚ) :
    qdiv (mean_of vs * (vs.length : ℚ) + x) ((vs.length : ℚ) + 1) =
      mean_of (vs ++ [x]) := by
  unfold mean_of
  rw [qdiv_eq_div, qdiv_eq_div, qdiv_eq_div]
  have hlen : ((vs.length : ℚ)) ≠ 0 := by
    have : 0 < vs.length := List.length_pos.mpr hne
    exact_mod_cast this.ne'
  rw [div_mul_cancel₀ _ hlen]
  have h1 : (vs ++ [x]).sum = vs.sum + x := by simp
  have h2 : (((vs ++ [x]).length : ℚ)) = (vs.length : ℚ) + 1 := by
    simp
  rw [h1, h2]

theorem mean_append_ge {vs : List ℚ} (hne : vs ≠ []) {x : ℚ}
    (h : mean_of vs ≤ x) : mean_of vs ≤ mean_of (vs ++ [x]) := by
  have hlen : (0 : ℚ) < (vs.length : ℚ) := by
    have : 0 < vs.length := List.length_pos.mpr hne
    exact_mod_cast this
  unfold mean_of at h ⊢
  rw [qdiv_eq_div] at h
  rw [qdiv_eq_div, qdiv_eq_div]
  rw [div_le_iff hlen] at h
  have hlen1 : (0 : ℚ) < ((vs ++ [x]).length : ℚ) := by
    have : 0 < (vs ++ [x]).length := by simp
    exact_mod_cast this
  rw [div_le_div_iff hlen hlen1]
  simp only [List.sum_append, List.length_append, List.sum_cons,
    List.sum_nil, List.length_cons, List.length_nil]
  push_cast
  nlinarith [h]

theorem bestIdxAux_strict (xc : ℚ) :
    ∀ (l : List ℚ) (k bi : Nat) (bd : ℚ),
      l.Chain' (fun c d => qabs (xc - d) < qabs (xc - c)) →
      (∀ c, l.head? = some c → qabs (xc - c) < bd) →
      bestIdxAux xc l k bi bd = if l.isEmpty then bi else k + l.length - 1 := by
  intro l
  induction l with
  | nil => intro k bi bd _ _; rfl
  | cons c rest ih =>
    intro k bi bd hchain h0
    have hc : qabs (xc - c) < bd := h0 c rfl
    unfold bestIdxAux
    rw [if_pos hc]
    rw [ih (k + 1) k (qabs (xc - c)) hchain.tail ?_]
    · cases rest with
      | nil => simp
      | cons d t =>
        simp only [List.isEmpty_cons, List.length_cons,
          Bool.false_eq_true, if_false]
        omega
    · intro d hd
      cases rest with
      | nil => cases hd
      | cons e t =>
        rw [List.head?_cons] at hd
        cases hd
        exact (List.chain'_cons.mp hchain).1

theorem bestIdx_last (xc : ℚ) (c0 : ℚ) (rest : List ℚ)
    (hchain : (c0 :: rest).Chain'
      (fun c d => qabs (xc - d) < qabs (xc - c))) :
    bestIdx xc (c0 :: rest) = rest.length := by
  show bestIdxAux xc rest 1 0 (qabs (xc - c0)) = rest.length
  rw [bestIdxAux_strict xc rest 1 0 (qabs (xc - c0)) hchain.tail ?_]
  · cases rest with
    | nil => rfl
    | cons d t => simp
  · intro d hd
    cases rest with
    | nil => cases hd
    | cons e t =>
      rw [List.head?_cons] at hd
      cases hd
      exact (List.chain'_cons.mp hchain).1

theorem set_length_sub_one {α : Type} :
    ∀ (l : List α), l ≠ [] → ∀ (v : α),
      l.set (l.length - 1) v = l.dropLast ++ [v] := by
  intro l
  induction l with
  | nil => intro h; cases h rfl
  | cons a rest ih =>
    intro _ v
    cases rest with
    | nil => rfl
    | cons b t =>
      have hr := ih (List.cons_ne_nil b t) v
      have hlen : (a :: b :: t).length - 1 = ((b :: t).length - 1) + 1 := by
        simp
      rw [hlen, List.set_cons_succ, hr]
      rfl

theorem getD_length_sub_one {α : Type} [Inhabited α] :
    ∀ (l : List α) (h : l ≠ []),
      l.getD (l.length - 1) default = l.getLast h := by
  intro l h
  have hlt : l.length - 1 < l.length := by
    have : 0 < l.length := List.length_pos.mpr h
    omega
  rw [List.getD_eq_getElem l default hlt]
  rw [List.getLast_eq_getElem]

theorem getD_map_default {α β : Type} [Inhabited α] [Inhabited β]
    (f : α → β) (hf : f default = default) (l : List α) (n : Nat) :
    (l.map f).getD n default = f (l.getD n default) := by
  rcases lt_or_ge n l.length with h | h
  · rw [List.getD_eq_getElem l default h]
    have h2 : n < (l.map f).length := by simpa using h
    rw [List.getD_eq_getElem (l.map f) default h2]
    simp
  · rw [List.getD_eq_default l default h]
    have h2 : (l.map f).length ≤ n := by simpa using h
    rw [List.getD_eq_default (l.map f) default h2, hf]

theorem xcProj_default : xcProj default = default := rfl

theorem xc_step_proj (tol : ℚ) (cs : List XCAug) (pt : Nat × ℚ) :
    (xc_step_aug tol cs pt).map xcProj = xc_step tol (cs.map xcProj) pt := by
  cases cs with
  | nil => rfl
  | cons c0 rest =>
    unfold xc_step_aug xc_step
    simp only [List.map_cons]
    have hc : (xcProj c0).center :: (rest.map xcProj).map XCCluster.center =
        c0.center :: rest.map XCAug.center := by
      rw [List.map_map]
      rfl
    rw [hc]
    have hgd : (xcProj c0 :: rest.map xcProj).getD
        (bestIdx pt.2 (c0.center :: rest.map XCAug.center)) default =
        xcProj ((c0 :: rest).getD
          (bestIdx pt.2 (c0.center :: rest.map XCAug.center)) default) := by
      rw [← List.map_cons xcProj c0 rest]
      exact getD_map_default xcProj xcProj_default (c0 :: rest) _
    rw [hgd]
    rw [show ∀ y : XCAug, (xcProj y).center = y.center from fun _ => rfl]
    by_cases hcond : qabs (pt.2 -
        ((c0 :: rest).getD (bestIdx pt.2 (c0.center :: rest.map XCAug.center))
          default).center) ≤ tol
    · rw [if_pos hcond, if_pos hcond]
      rw [List.map_set]
      rfl
    · rw [if_neg hcond, if_neg hcond]
      rw [List.map_append]
      rfl

theorem xc_fold_proj (tol : ℚ) :
    ∀ (xs : List (Nat × ℚ)) (cs : List XCAug),
      (xs.foldl (xc_step_aug tol) cs).map xcProj =
        xs.foldl (xc_step tol) (cs.map xcProj) := by
  intro xs
  induction xs with
  | nil => intro cs; rfl
  | cons q rest ih =>
    intro cs
    rw [List.foldl_cons, List.foldl_cons, ih, xc_step_proj]

theorem xc_step_inv (tol : ℚ) (htol : 0 ≤ tol) (cs : List XCAug)
    (ps : List (Nat × ℚ)) (pt : Nat × ℚ) (hinv : XCInv cs ps)
    (hle : ∀ q ∈ ps, q.2 ≤ pt.2) :
    XCInv (xc_step_aug tol cs pt) (ps ++ [pt]) := by
  obtain ⟨hflat, hprops, hcent⟩ := hinv
  cases cs with
  | nil =>
    have hps : ps = [] := hflat.symm
    subst hps
    refine ⟨rfl, ?_, ?_⟩
    · intro c hc
      have hc2 : c = ⟨pt.2, [pt.1], [pt.2]⟩ := by
        simpa [xc_step_aug] using hc
      subst hc2
      exact ⟨rfl, by simp, (mean_of_singleton pt.2).symm⟩
    · simp [xc_step_aug]
  | cons c0 rest =>
    have hne : c0 :: rest ≠ [] := List.cons_ne_nil c0 rest
    have hlast := List.getLast_mem hne
    have hvalmem : ∀ c ∈ c0 :: rest, ∀ v ∈ c.vals, ∃ m, (m, v) ∈ ps := by
      intro c hc v hv
      have hlen := (hprops c hc).1
      have hmap : (c.members.zip c.vals).map Prod.snd = c.vals :=
        List.map_snd_zip _ _ (le_of_eq hlen.symm)
      have hv2 : v ∈ (c.members.zip c.vals).map Prod.snd := by
        rw [hmap]; exact hv
      rcases List.mem_map.mp hv2 with ⟨pr, hpr, hsnd⟩
      refine ⟨pr.1, ?_⟩
      have hin : pr ∈ ps := by
        rw [← hflat]
        exact List.mem_flatMap.mpr ⟨c, hc, hpr⟩
      have hpr2 : pr = (pr.1, v) := by
        rcases pr with ⟨m1, v1⟩
        cases hsnd
        rfl
      rw [← hpr2]
      exact hin
    have hcenle : ∀ c ∈ c0 :: rest, c.center ≤ pt.2 := by
      intro c hc
      obtain ⟨hlen, hvne, hcm⟩ := hprops c hc
      rw [hcm]
      refine mean_le_of_forall_le hvne ?_
      intro v hv
      rcases hvalmem c hc v hv with ⟨m, hm⟩
      exact hle (m, v) hm
    have hchain : ((c0 :: rest).map XCAug.center).Chain'
        (fun c d => qabs (pt.2 - d) < qabs (pt.2 - c)) := by
      refine List.Pairwise.chain' ?_
      refine hcent.imp_of_mem ?_
      intro a b ha hb hab
      rcases List.mem_map.mp ha with ⟨ca, hca, rfl⟩
      rcases List.mem_map.mp hb with ⟨cb, hcb, rfl⟩
      have h1 : ca.center ≤ pt.2 := hcenle ca hca
      have h2 : cb.center ≤ pt.2 := hcenle cb hcb
      rw [qabs_of_nonneg (by linarith), qabs_of_nonneg (by linarith)]
      linarith
    have hmapc : (c0 :: rest).map XCAug.center =
        c0.center :: rest.map XCAug.center := rfl
    have hbi : bestIdx pt.2 ((c0 :: rest).map XCAug.center) =
        (c0 :: rest).length - 1 := by
      rw [hmapc]
      rw [bestIdx_last pt.2 c0.center (rest.map XCAug.center)
        (by rw [← hmapc]; exact hchain)]
      simp
    have hgd : (c0 :: rest).getD
        (bestIdx pt.2 ((c0 :: rest).map XCAug.center)) default =
        (c0 :: rest).getLast hne := by
      rw [hbi]
      exact getD_length_sub_one (c0 :: rest) hne
    obtain ⟨hlenL, hvneL, hcmL⟩ := hprops ((c0 :: rest).getLast hne) hlast
    have hsplit : c0 :: rest =
        (c0 :: rest).dropLast ++ [(c0 :: rest).getLast hne] :=
      (List.dropLast_append_getLast hne).symm
    have hLle : ((c0 :: rest).getLast hne).center ≤ pt.2 :=
      hcenle _ hlast
    have hcentsplit : ((c0 :: rest).dropLast.map XCAug.center ++
        [((c0 :: rest).getLast hne).center]).Pairwise (· < ·) := by
      have := hcent
      rw [hsplit] at this
      simpa using this
    have hcross : ∀ x ∈ (c0 :: rest).dropLast.map XCAug.center,
        x < ((c0 :: rest).getLast hne).center := by
      have h := (List.pairwise_append.mp hcentsplit).2.2
      intro x hx
      exact h x hx _ (by simp)
    unfold xc_step_aug
    dsimp only
    rw [hgd]
    by_cases hcond : qabs (pt.2 - ((c0 :: rest).getLast hne).center) ≤ tol
    · rw [if_pos hcond, hbi, set_length_sub_one (c0 :: rest) hne]
      have hmerged : qdiv (((c0 :: rest).getLast hne).center *
          ((((c0 :: rest).getLast hne).members.length : ℕ) : ℚ) + pt.2)
          (((((c0 :: rest).getLast hne).members.length : ℕ) : ℚ) + 1) =
          mean_of (((c0 :: rest).getLast hne).vals ++ [pt.2]) := by
        rw [hcmL, hlenL]
        exact running_mean hvneL pt.2
      refine ⟨?_, ?_, ?_⟩
      · rw [List.flatMap_append]
        have hz : ((((c0 :: rest).getLast hne).members ++ [pt.1]).zip
            ((((c0 :: rest).getLast hne).vals ++ [pt.2]))) =
            (((c0 :: rest).getLast hne).members.zip
              ((c0 :: rest).getLast hne).vals) ++ [(pt.1, pt.2)] := by
          rw [List.zip_append hlenL]
          rfl
        have hfl : ([(⟨qdiv (((c0 :: rest).getLast hne).center *
            ((((c0 :: rest).getLast hne).members.length : ℕ) : ℚ) + pt.2)
            (((((c0 :: rest).getLast hne).members.length : ℕ) : ℚ) + 1),
            ((c0 :: rest).getLast hne).members ++ [pt.1],
            ((c0 :: rest).getLast hne).vals ++ [pt.2]⟩ : XCAug)].flatMap
            (fun c => c.members.zip c.vals)) =
            (((c0 :: rest).getLast hne).members.zip
              ((c0 :: rest).getLast hne).vals) ++ [(pt.1, pt.2)] := by
          simp only [List.flatMap_cons, List.flatMap_nil, List.append_nil]
          exact hz
        rw [hfl]
        have hflat2 := hflat
        rw [hsplit, List.flatMap_append] at hflat2
        simp only [List.flatMap_cons, List.flatMap_nil,
          List.append_nil] at hflat2
        rw [← List.append_assoc, hflat2]
      · intro c hc
        rcases List.mem_append.mp hc with hcd | hcm
        · exact hprops c (by rw [hsplit]; exact List.mem_append_left _ hcd)
        · have hceq : c = ⟨qdiv (((c0 :: rest).getLast hne).center *
              ((((c0 :: rest).getLast hne).members.length : ℕ) : ℚ) + pt.2)
              (((((c0 :: rest).getLast hne).members.length : ℕ) : ℚ) + 1),
              ((c0 :: rest).getLast hne).members ++ [pt.1],
              ((c0 :: rest).getLast hne).vals ++ [pt.2]⟩ := by
            simpa using hcm
          subst hceq
          refine ⟨by simp [hlenL], by simp, ?_⟩
          exact hmerged
      · rw [List.map_append]
        refine List.pairwise_append.mpr ⟨?_, ?_, ?_⟩
        · exact (List.pairwise_append.mp hcentsplit).1
        · simp
        · intro x hx y hy
          have hy2 : y = qdiv (((c0 :: rest).getLast hne).center *
              ((((c0 :: rest).getLast hne).members.length : ℕ) : ℚ) + pt.2)
              (((((c0 :: rest).getLast hne).members.length : ℕ) : ℚ) + 1) := by
            simpa using hy
          subst hy2
          have h1 : x < ((c0 :: rest).getLast hne).center := hcross x hx
          have h2 : ((c0 :: rest).getLast hne).center ≤
              mean_of (((c0 :: rest).getLast hne).vals ++ [pt.2]) := by
            rw [hcmL]
            refine mean_append_ge hvneL ?_
            rw [← hcmL]
            exact hLle
          rw [hmerged]
          calc x < ((c0 :: rest).getLast hne).center := h1
            _ ≤ _ := h2
    · rw [if_neg hcond]
      have hLlt : ((c0 :: rest).getLast hne).center < pt.2 := by
        have h2 : tol < qabs (pt.2 - ((c0 :: rest).getLast hne).center) :=
          lt_of_not_ge hcond
        rw [qabs_of_nonneg (by linarith)] at h2
        linarith
      have hallc : ∀ c ∈ c0 :: rest, c.center < pt.2 := by
        intro c hc
        rw [hsplit] at hc
        rcases List.mem_append.mp hc with hcd | hcm
        · have := hcross c.center (List.mem_map_of_mem XCAug.center hcd)
          linarith [hLlt]
        · have hceq : c = (c0 :: rest).getLast hne := by simpa using hcm
          rw [hceq]
          exact hLlt
      refine ⟨?_, ?_, ?_⟩
      · rw [List.flatMap_append, hflat]
        rfl
      · intro c hc
        rcases List.mem_append.mp hc with hcd | hcm
        · exact hprops c hcd
        · have hceq : c = ⟨pt.2, [pt.1], [pt.2]⟩ := by simpa using hcm
          subst hceq
          exact ⟨rfl, by simp, (mean_of_singleton pt.2).symm⟩
      · rw [List.map_append]
        refine List.pairwise_append.mpr ⟨hcent, by simp, ?_⟩
        intro x hx y hy
        have hy2 : y = pt.2 := by simpa using hy
        subst hy2
        rcases List.mem_map.mp hx with ⟨ca, hca, rfl⟩
        exact hallc ca hca

theorem xc_fold_inv (tol : ℚ) (htol : 0 ≤ tol) :
    ∀ (xs ps : List (Nat × ℚ)) (cs : List XCAug),
      XCInv cs ps → ((ps ++ xs).map Prod.snd).Pairwise (· ≤ ·) →
      XCInv (xs.foldl (xc_step_aug tol) cs) (ps ++ xs) := by
  intro xs
  induction xs with
  | nil =>
    intro ps cs hinv _
    simpa using hinv
  | cons q rest ih =>
    intro ps cs hinv hsort
    have hle : ∀ p ∈ ps, p.2 ≤ q.2 := by
      intro p hp
      have hs2 := hsort
      rw [List.map_append] at hs2
      have h := (List.pairwise_append.mp hs2).2.2
      exact h p.2 (List.mem_map_of_mem Prod.snd hp) q.2 (by simp)
    have hstep := xc_step_inv tol htol cs ps q hinv hle
    have hsort2 : (((ps ++ [q]) ++ rest).map Prod.snd).Pairwise (· ≤ ·) := by
      rw [List.append_assoc]
      exact hsort
    have hres := ih (ps ++ [q]) (xc_step_aug tol cs q) hstep hsort2
    rw [List.foldl_cons]
    have hassoc : (ps ++ [q]) ++ rest = ps ++ q :: rest := by simp
    rw [← hassoc]
    exact hres

theorem x0_step_inv (tol : ℚ) (cs : List X0Cluster)
    (ps : List (Nat × ℚ)) (pt : Nat × ℚ) (hinv : X0Inv cs ps) :
    X0Inv (x0_step tol cs pt) (ps ++ [pt]) := by
  obtain ⟨hflat, hprops⟩ := hinv
  cases cs with
  | nil =>
    have hps : ps = [] := hflat.symm
    subst hps
    refine ⟨rfl, ?_⟩
    intro c hc
    have hc2 : c = ⟨pt.2, [pt.1], [pt.2]⟩ := by
      simpa [x0_step] using hc
    subst hc2
    exact ⟨rfl, by simp, (mean_of_singleton pt.2).symm⟩
  | cons c0 rest =>
    have hne : c0 :: rest ≠ [] := List.cons_ne_nil c0 rest
    have hlast := List.getLast_mem hne
    obtain ⟨hlenL, hvneL, hcmL⟩ := hprops ((c0 :: rest).getLast hne) hlast
    have hsplit : c0 :: rest =
        (c0 :: rest).dropLast ++ [(c0 :: rest).getLast hne] :=
      (List.dropLast_append_getLast hne).symm
    have hgl : (c0 :: rest).getLast? = some ((c0 :: rest).getLast hne) :=
      List.getLast?_eq_getLast (c0 :: rest) hne
    unfold x0_step
    rw [hgl]
    dsimp only
    by_cases hcond : qabs (pt.2 - ((c0 :: rest).getLast hne).rep) ≤ tol
    · rw [if_pos hcond]
      refine ⟨?_, ?_⟩
      · rw [List.flatMap_append]
        have hz : ((((c0 :: rest).getLast hne).members ++ [pt.1]).zip
            ((((c0 :: rest).getLast hne).xs ++ [pt.2]))) =
            (((c0 :: rest).getLast hne).members.zip
              ((c0 :: rest).getLast hne).xs) ++ [(pt.1, pt.2)] := by
          rw [List.zip_append hlenL]
          rfl
        simp only [List.flatMap_cons, List.flatMap_nil, List.append_nil]
        rw [hz]
        have hflat2 := hflat
        rw [hsplit, List.flatMap_append] at hflat2
        simp only [List.flatMap_cons, List.flatMap_nil,
          List.append_nil] at hflat2
        rw [← List.append_assoc, hflat2]
      · intro c hc
        rcases List.mem_append.mp hc with hcd | hcm
        · exact hprops c (by rw [hsplit]; exact List.mem_append_left _ hcd)
        · have hceq : c = ⟨mean_of (((c0 :: rest).getLast hne).xs ++ [pt.2]),
              ((c0 :: rest).getLast hne).members ++ [pt.1],
              ((c0 :: rest).getLast hne).xs ++ [pt.2]⟩ := by
            simpa using hcm
          subst hceq
          exact ⟨by simp [hlenL], by simp, rfl⟩
    · rw [if_neg hcond]
      refine ⟨?_, ?_⟩
      · rw [List.flatMap_append, hflat]
        rfl
      · intro c hc
        rcases List.mem_append.mp hc with hcd | hcm
        · exact hprops c hcd
        · have hceq : c = ⟨pt.2, [pt.1], [pt.2]⟩ := by simpa using hcm
          subst hceq
          exact ⟨rfl, by simp, (mean_of_singleton pt.2).symm⟩

theorem x0_fold_inv (tol : ℚ) :
    ∀ (xs ps : List (Nat × ℚ)) (cs : List X0Cluster),
      X0Inv cs ps → X0Inv (xs.foldl (x0_step tol) cs) (ps ++ xs) := by
  intro xs
  induction xs with
  | nil =>
    intro ps cs hinv
    simpa using hinv
  | cons q rest ih =>
    intro ps cs hinv
    have hstep := x0_step_inv tol cs ps q hinv
    have hres := ih (ps ++ [q]) (x0_step tol cs q) hstep
    rw [List.foldl_cons]
    have hassoc : (ps ++ [q]) ++ rest = ps ++ q :: rest := by simp
    rw [← hassoc]
    exact hres

theorem lookupN_none_of_not_mem_fst {β : Type} {l : List (Nat × β)} {i : Nat}
    (h : i ∉ l.map Prod.fst) : l.lookup i = none := by
  induction l with
  | nil => rfl
  | cons a rest ih =>
    rw [List.map_cons, List.mem_cons] at h
    push_neg at h
    rw [List.lookup_cons]
    rw [beq_eq_false_iff_ne.mpr h.1]
    exact ih h.2

theorem lookup_map_const_of_mem {l : List Nat} {a : Nat} (h : a ∈ l) (v : Nat) :
    ((l.map fun ix => (ix, v)).lookup a) = some v := by
  induction l with
  | nil => cases h
  | cons b rest ih =>
    rw [List.map_cons, List.lookup_cons]
    by_cases hab : a = b
    · rw [beq_iff_eq.mpr hab]
    · rcases List.mem_cons.mp h with h1 | h2
      · cases hab h1
      · rw [beq_eq_false_iff_ne.mpr hab]
        exact ih h2

theorem lookup_append_left_some {β : Type} {l1 l2 : List (Nat × β)} {a : Nat}
    {v : β} (h : l1.lookup a = some v) : (l1 ++ l2).lookup a = some v := by
  induction l1 with
  | nil => cases h
  | cons p rest ih =>
    rw [List.cons_append, List.lookup_cons]
    rw [List.lookup_cons] at h
    cases hab : (a == p.1) with
    | true =>
      rw [hab] at h
      exact h
    | false =>
      rw [hab] at h
      exact ih h

theorem lookup_append_right_none {β : Type} {l1 l2 : List (Nat × β)} {a : Nat}
    (h : a ∉ l1.map Prod.fst) : (l1 ++ l2).lookup a = l2.lookup a := by
  induction l1 with
  | nil => rfl
  | cons p rest ih =>
    rw [List.map_cons, List.mem_cons] at h
    push_neg at h
    rw [List.cons_append, List.lookup_cons, beq_eq_false_iff_ne.mpr h.1]
    exact ih h.2

theorem lookup_enumFrom_flatMap {α : Type} (f : α → List Nat) :
    ∀ (cs : List α) (k i : Nat) (hi : i < cs.length) (ia : Nat),
      ia ∈ f (cs.get ⟨i, hi⟩) → (cs.flatMap f).Nodup →
      ((cs.enumFrom k).flatMap fun p => (f p.2).map fun ix => (ix, p.1)).lookup
        ia = some (k + i) := by
  intro cs
  induction cs with
  | nil => intro k i hi; cases (Nat.not_lt_zero i) hi
  | cons c rest ih =>
    intro k i hi ia hmem hnd
    rw [List.enumFrom_cons, List.flatMap_cons]
    rw [List.flatMap_cons] at hnd
    have hdis := List.disjoint_of_nodup_append hnd
    cases i with
    | zero =>
      have hia : ia ∈ f c := hmem
      rw [Nat.add_zero]
      exact lookup_append_left_some (lookup_map_const_of_mem hia k)
    | succ j =>
      have hj : j < rest.length := Nat.lt_of_succ_lt_succ hi
      have hmem2 : ia ∈ f (rest.get ⟨j, hj⟩) := hmem
      have hrest : ia ∈ rest.flatMap f :=
        List.mem_flatMap.mpr ⟨rest.get ⟨j, hj⟩, List.get_mem rest j hj, hmem2⟩
      have hnotc : ia ∉ f c := fun hc => hdis hc hrest
      have hfst : ((f c).map fun ix => (ix, k)).map Prod.fst = f c := by
        rw [List.map_map]
        exact List.map_id _
      rw [lookup_append_right_none (by rw [hfst]; exact hnotc)]
      have hres := ih (k + 1) j hj ia hmem2 ((List.nodup_append.mp hnd).2.1)
      rw [hres]
      have : k + 1 + j = k + (j + 1) := by omega
      rw [this]

theorem colAssign_lookup {α : Type} (f : α → List Nat) (cs : List α)
    (i : Nat) (hi : i < cs.length) (ia : Nat)
    (hmem : ia ∈ f (cs.get ⟨i, hi⟩)) (hnd : (cs.flatMap f).Nodup) :
    (colAssign f cs).lookup ia = some i := by
  unfold colAssign
  have h := lookup_enumFrom_flatMap f cs 0 i hi ia hmem hnd
  rw [Nat.zero_add] at h
  exact h

theorem flat_cross_le {α : Type} (g : α → List ℚ) (cs : List α)
    (vs : List ℚ) (hflat : cs.flatMap g = vs)
    (hsort : vs.Pairwise (· ≤ ·)) {i j : Nat} (hij : i < j)
    (hi : i < cs.length) (hj : j < cs.length) {x y : ℚ}
    (hx : x ∈ g (cs.get ⟨i, hi⟩)) (hy : y ∈ g (cs.get ⟨j, hj⟩)) : x ≤ y := by
  have hsplit : cs = cs.take (i + 1) ++ cs.drop (i + 1) :=
    (List.take_append_drop (i + 1) cs).symm
  have hvs : (cs.take (i + 1)).flatMap g ++ (cs.drop (i + 1)).flatMap g =
      vs := by
    rw [← List.flatMap_append, ← hsplit, hflat]
  have hxl : x ∈ (cs.take (i + 1)).flatMap g := by
    have hitake : i < (cs.take (i + 1)).length := by
      rw [List.length_take]
      omega
    refine List.mem_flatMap.mpr ⟨(cs.take (i + 1)).get ⟨i, hitake⟩, ?_, ?_⟩
    · exact List.get_mem _ _ _
    · have : (cs.take (i + 1)).get ⟨i, hitake⟩ = cs.get ⟨i, hi⟩ := by
        simp [List.getElem_take]
      rw [this]
      exact hx
  have hyr : y ∈ (cs.drop (i + 1)).flatMap g := by
    have hjdrop : j - (i + 1) < (cs.drop (i + 1)).length := by
      rw [List.length_drop]
      omega
    refine List.mem_flatMap.mpr
      ⟨(cs.drop (i + 1)).get ⟨j - (i + 1), hjdrop⟩, ?_, ?_⟩
    · exact List.get_mem _ _ _
    · have : (cs.drop (i + 1)).get ⟨j - (i + 1), hjdrop⟩ = cs.get ⟨j, hj⟩ := by
        have h2 : i + 1 + (j - (i + 1)) = j := by omega
        simp only [List.get_eq_getElem, List.getElem_drop, h2]
      rw [this]
      exact hy
  have hpw : ((cs.take (i + 1)).flatMap g ++ (cs.drop (i + 1)).flatMap g
      ).Pairwise (· ≤ ·) := by
    rw [hvs]
    exact hsort
  exact (List.pairwise_append.mp hpw).2.2 x hxl y hyr

theorem x0_mono (items : List MergeItem) (tol : ℚ) (htol : 0 ≤ tol)
    (hnd : (items.map MergeItem.idx).Nodup) {a b : MergeItem}
    (ha : a ∈ items) (hb : b ∈ items)
    (hgap : a.box.x0 < b.box.x0 - tol) :
    col_of (_cluster_by_x0 items tol) a.idx ≤
      col_of (_cluster_by_x0 items tol) b.idx := by
  have hperm : ((items.map fun it => (it.idx, it.box.x0)).mergeSort
      fun p q => decide (p.2 ≤ q.2)).Perm
      (items.map fun it => (it.idx, it.box.x0)) :=
    List.mergeSort_perm _ _
  have hsorted : ((items.map fun it => (it.idx, it.box.x0)).mergeSort
      fun p q => decide (p.2 ≤ q.2)).Pairwise fun p q => p.2 ≤ q.2 := by
    have h := @List.sorted_mergeSort (Nat × ℚ)
      (fun p q => decide (p.2 ≤ q.2))
      (by intro x y z hab hbc; simp at hab hbc ⊢; exact le_trans hab hbc)
      (by intro x y; simp; exact le_total x.2 y.2)
      (items.map fun it => (it.idx, it.box.x0))
    exact h.imp (by intro x y hh; simpa using hh)
  have hsnd : (((items.map fun it => (it.idx, it.box.x0)).mergeSort
      fun p q => decide (p.2 ≤ q.2)).map Prod.snd).Pairwise (· ≤ ·) :=
    List.pairwise_map.mpr hsorted
  have hfst0 : ((items.map fun it => (it.idx, it.box.x0)).map Prod.fst) =
      items.map MergeItem.idx := by
    rw [List.map_map]
    rfl
  have hfstnd : (((items.map fun it => (it.idx, it.box.x0)).mergeSort
      fun p q => decide (p.2 ≤ q.2)).map Prod.fst).Nodup := by
    refine ((hperm.map Prod.fst).nodup_iff).mpr ?_
    rw [hfst0]
    exact hnd
  have hinv := x0_fold_inv tol ((items.map fun it => (it.idx, it.box.x0)
      ).mergeSort fun p q => decide (p.2 ≤ q.2)) [] []
    ⟨rfl, by intro c hc; cases hc⟩
  rw [List.nil_append] at hinv
  obtain ⟨hflat, hprops⟩ := hinv
  have hamem : (a.idx, a.box.x0) ∈ ((items.map fun it =>
      (it.idx, it.box.x0)).mergeSort fun p q => decide (p.2 ≤ q.2)) :=
    hperm.mem_iff.mpr (List.mem_map_of_mem _ ha)
  have hbmem : (b.idx, b.box.x0) ∈ ((items.map fun it =>
      (it.idx, it.box.x0)).mergeSort fun p q => decide (p.2 ≤ q.2)) :=
    hperm.mem_iff.mpr (List.mem_map_of_mem _ hb)
  have hamem2 : (a.idx, a.box.x0) ∈ (((items.map fun it =>
      (it.idx, it.box.x0)).mergeSort fun p q => decide (p.2 ≤ q.2)).foldl
      (x0_step tol) []).flatMap (fun c => c.members.zip c.xs) := by
    rw [hflat]; exact hamem
  have hbmem2 : (b.idx, b.box.x0) ∈ (((items.map fun it =>
      (it.idx, it.box.x0)).mergeSort fun p q => decide (p.2 ≤ q.2)).foldl
      (x0_step tol) []).flatMap (fun c => c.members.zip c.xs) := by
    rw [hflat]; exact hbmem
  rcases List.mem_flatMap.mp hamem2 with ⟨ca, hca, hpa⟩
  rcases List.mem_flatMap.mp hbmem2 with ⟨cb, hcb, hpb⟩
  rcases List.mem_iff_get.mp hca with ⟨⟨i, hi⟩, hieq⟩
  rcases List.mem_iff_get.mp hcb with ⟨⟨j, hj⟩, hjeq⟩
  have hpa2 := List.of_mem_zip hpa
  have hpb2 := List.of_mem_zip hpb
  have hfm : ((((items.map fun it => (it.idx, it.box.x0)).mergeSort
      fun p q => decide (p.2 ≤ q.2)).foldl (x0_step tol) []).flatMap
      X0Cluster.members) = (((items.map fun it => (it.idx, it.box.x0)
      ).mergeSort fun p q => decide (p.2 ≤ q.2)).map Prod.fst) := by
    conv_rhs => rw [← hflat]
    rw [List.map_flatMap]
    refine List.flatMap_congr ?_
    intro c hc
    exact (List.map_fst_zip _ _ (le_of_eq (hprops c hc).1)).symm
  have hfx : ((((items.map fun it => (it.idx, it.box.x0)).mergeSort
      fun p q => decide (p.2 ≤ q.2)).foldl (x0_step tol) []).flatMap
      X0Cluster.xs) = (((items.map fun it => (it.idx, it.box.x0)
      ).mergeSort fun p q => decide (p.2 ≤ q.2)).map Prod.snd) := by
    conv_rhs => rw [← hflat]
    rw [List.map_flatMap]
    refine List.flatMap_congr ?_
    intro c hc
    exact (List.map_snd_zip _ _ (le_of_eq (hprops c hc).1.symm)).symm
  have hflatnd : ((((items.map fun it => (it.idx, it.box.x0)).mergeSort
      fun p q => decide (p.2 ≤ q.2)).foldl (x0_step tol) []).flatMap
      X0Cluster.members).Nodup := by
    rw [hfm]; exact hfstnd
  have hrepsle : ((((items.map fun it => (it.idx, it.box.x0)).mergeSort
      fun p q => decide (p.2 ≤ q.2)).foldl (x0_step tol) [])).Pairwise
      fun c d => c.rep ≤ d.rep := by
    rw [List.pairwise_iff_get]
    intro u v huv
    obtain ⟨hlu, hxu, hru⟩ := hprops _ (List.get_mem _ _ _)
    obtain ⟨hlv, hxv, hrv⟩ := hprops _ (List.get_mem _ _ _)
    rw [hru, hrv]
    refine mean_mono hxu hxv ?_
    intro x hx y hy
    exact flat_cross_le X0Cluster.xs _ _ hfx hsnd huv u.isLt v.isLt hx hy
  have hfin : ((((items.map fun it => (it.idx, it.box.x0)).mergeSort
      fun p q => decide (p.2 ≤ q.2)).foldl (x0_step tol) []).mergeSort
      fun c d => decide (c.rep ≤ d.rep)) = (((items.map fun it =>
      (it.idx, it.box.x0)).mergeSort fun p q => decide (p.2 ≤ q.2)).foldl
      (x0_step tol) []) := by
    apply List.mergeSort_of_sorted
    exact hrepsle.imp (by intro x y hh; simpa using hh)
  have hdef : _cluster_by_x0 items tol = colAssign X0Cluster.members
      ((((items.map fun it => (it.idx, it.box.x0)).mergeSort
      fun p q => decide (p.2 ≤ q.2)).foldl (x0_step tol) []).mergeSort
      fun c d => decide (c.rep ≤ d.rep)) := rfl
  have hcola : col_of (_cluster_by_x0 items tol) a.idx = i := by
    rw [hdef, hfin]
    unfold col_of
    rw [colAssign_lookup X0Cluster.members _ i hi a.idx
      (by rw [hieq]; exact hpa2.1) hflatnd]
    rfl
  have hcolb : col_of (_cluster_by_x0 items tol) b.idx = j := by
    rw [hdef, hfin]
    unfold col_of
    rw [colAssign_lookup X0Cluster.members _ j hj b.idx
      (by rw [hjeq]; exact hpb2.1) hflatnd]
    rfl
  rw [hcola, hcolb]
  by_contra hc
  push_neg at hc
  have hxle : b.box.x0 ≤ a.box.x0 := by
    refine flat_cross_le X0Cluster.xs _ _ hfx hsnd hc hj hi ?_ ?_
    · rw [hjeq]; exact hpb2.2
    · rw [hieq]; exact hpa2.2
  linarith

theorem xc_endgame (srt : List (Nat × ℚ)) (tol : ℚ) (htol : 0 ≤ tol)
    (hsnd : (srt.map Prod.snd).Pairwise (· ≤ ·))
    (hfstnd : (srt.map Prod.fst).Nodup)
    {ia ib : Nat} {va vb : ℚ}
    (hamem : (ia, va) ∈ srt) (hbmem : (ib, vb) ∈ srt) (hlt : va < vb) :
    col_of (colAssign XCCluster.members
      ((srt.foldl (xc_step tol) []).mergeSort
        fun c d => decide (c.center ≤ d.center))) ia ≤
      col_of (colAssign XCCluster.members
        ((srt.foldl (xc_step tol) []).mergeSort
          fun c d => decide (c.center ≤ d.center))) ib := by
  have hproj : (srt.foldl (xc_step_aug tol) []).map xcProj =
      srt.foldl (xc_step tol) [] := xc_fold_proj tol srt []
  have hinv0 : XCInv [] [] := by
    refine ⟨rfl, ?_, ?_⟩
    · intro c hc; cases hc
    · simp
  have hinv := xc_fold_inv tol htol srt [] [] hinv0 hsnd
  rw [List.nil_append] at hinv
  obtain ⟨hflat, hprops, hcent⟩ := hinv
  have hamem2 : (ia, va) ∈ (srt.foldl (xc_step_aug tol) []).flatMap
      (fun c => c.members.zip c.vals) := by
    rw [hflat]; exact hamem
  have hbmem2 : (ib, vb) ∈ (srt.foldl (xc_step_aug tol) []).flatMap
      (fun c => c.members.zip c.vals) := by
    rw [hflat]; exact hbmem
  rcases List.mem_flatMap.mp hamem2 with ⟨ca, hca, hpa⟩
  rcases List.mem_flatMap.mp hbmem2 with ⟨cb, hcb, hpb⟩
  rcases List.mem_iff_get.mp hca with ⟨⟨i, hi⟩, hieq⟩
  rcases List.mem_iff_get.mp hcb with ⟨⟨j, hj⟩, hjeq⟩
  have hpa2 := List.of_mem_zip hpa
  have hpb2 := List.of_mem_zip hpb
  have hfm : (srt.foldl (xc_step_aug tol) []).flatMap XCAug.members =
      srt.map Prod.fst := by
    conv_rhs => rw [← hflat]
    rw [List.map_flatMap]
    refine List.flatMap_congr ?_
    intro c hc
    exact (List.map_fst_zip _ _ (le_of_eq (hprops c hc).1)).symm
  have hfx : (srt.foldl (xc_step_aug tol) []).flatMap XCAug.vals =
      srt.map Prod.snd := by
    conv_rhs => rw [← hflat]
    rw [List.map_flatMap]
    refine List.flatMap_congr ?_
    intro c hc
    exact (List.map_snd_zip _ _ (le_of_eq (hprops c hc).1.symm)).symm
  have hple : (srt.foldl (xc_step_aug tol) []).Pairwise
      fun c d => c.center ≤ d.center := by
    have h2 := List.pairwise_map.mp hcent
    exact h2.imp fun h => le_of_lt h
  have hprojle : ((srt.foldl (xc_step_aug tol) []).map xcProj).Pairwise
      fun c d => c.center ≤ d.center := List.pairwise_map.mpr hple
  have hfin : ((srt.foldl (xc_step tol) []).mergeSort
      fun c d => decide (c.center ≤ d.center)) =
      (srt.foldl (xc_step_aug tol) []).map xcProj := by
    rw [← hproj]
    apply List.mergeSort_of_sorted
    exact hprojle.imp (by intro x y hh; simpa using hh)
  have hi2 : i < ((srt.foldl (xc_step_aug tol) []).map xcProj).length := by
    simpa using hi
  have hj2 : j < ((srt.foldl (xc_step_aug tol) []).map xcProj).length := by
    simpa using hj
  have hgeta : (((srt.foldl (xc_step_aug tol) []).map xcProj).get
      ⟨i, hi2⟩).members = ca.members := by
    simp only [List.get_eq_getElem, List.getElem_map]
    have h3 : (srt.foldl (xc_step_aug tol) [])[i] = ca := hieq
    rw [h3]
    rfl
  have hgetb : (((srt.foldl (xc_step_aug tol) []).map xcProj).get
      ⟨j, hj2⟩).members = cb.members := by
    simp only [List.get_eq_getElem, List.getElem_map]
    have h3 : (srt.foldl (xc_step_aug tol) [])[j] = cb := hjeq
    rw [h3]
    rfl
  have hndflat : (((srt.foldl (xc_step_aug tol) []).map xcProj).flatMap
      XCCluster.members).Nodup := by
    have h4 : ((srt.foldl (xc_step_aug tol) []).map xcProj).flatMap
        XCCluster.members =
        (srt.foldl (xc_step_aug tol) []).flatMap XCAug.members := by
      rw [List.flatMap_map]
      rfl
    rw [h4, hfm]
    exact hfstnd
  have hcola : col_of (colAssign XCCluster.members
      ((srt.foldl (xc_step tol) []).mergeSort
        fun c d => decide (c.center ≤ d.center))) ia = i := by
    rw [hfin]
    unfold col_of
    rw [colAssign_lookup XCCluster.members _ i hi2 ia
      (by rw [hgeta]; exact hpa2.1) hndflat]
    rfl
  have hcolb : col_of (colAssign XCCluster.members
      ((srt.foldl (xc_step tol) []).mergeSort
        fun c d => decide (c.center ≤ d.center))) ib = j := by
    rw [hfin]
    unfold col_of
    rw [colAssign_lookup XCCluster.members _ j hj2 ib
      (by rw [hgetb]; exact hpb2.1) hndflat]
    rfl
  rw [hcola, hcolb]
  by_contra hcon
  push_neg at hcon
  have hxle : vb ≤ va := by
    refine flat_cross_le XCAug.vals _ _ hfx hsnd hcon hj hi ?_ ?_
    · rw [hjeq]; exact hpb2.2
    · rw [hieq]; exact hpa2.2
  linarith

theorem viz_centers_fst_sublist (items : List (Nat × Chunk)) :
    ((viz_centers items).map Prod.fst).Sublist (items.map Prod.fst) := by
  induction items with
  | nil => simp [viz_centers]
  | cons p rest ih =>
    show (((p :: rest).filterMap fun ic =>
      (vizGetBBox ic.2).map fun b => (ic.1, x_center b)).map
        Prod.fst).Sublist _
    rw [List.filterMap_cons]
    cases h : (vizGetBBox p.2).map fun b => (p.1, x_center b) with
    | none =>
      rw [List.map_cons]
      exact List.Sublist.cons p.1 ih
    | some r =>
      rcases Option.map_eq_some'.mp h with ⟨b, hb, hr⟩
      rw [List.map_cons, List.map_cons, ← hr]
      exact List.Sublist.cons₂ p.1 ih

theorem xcenter_mono (items : List (Nat × Chunk)) (tol : ℚ) (htol : 0 ≤ tol)
    (hnd : (items.map Prod.fst).Nodup) {pa pb : Nat × Chunk}
    (ha : pa ∈ items) (hb : pb ∈ items) {ba bb : BBox}
    (hba : vizGetBBox pa.2 = some ba) (hbb : vizGetBBox pb.2 = some bb)
    (hgap : x_center ba < x_center bb - tol) :
    col_of (cluster_by_xcenter items tol) pa.1 ≤
      col_of (cluster_by_xcenter items tol) pb.1 := by
  have hcmema : (pa.1, x_center ba) ∈ viz_centers items := by
    refine List.mem_filterMap.mpr ⟨pa, ha, ?_⟩
    rw [hba]
    rfl
  have hcmemb : (pb.1, x_center bb) ∈ viz_centers items := by
    refine List.mem_filterMap.mpr ⟨pb, hb, ?_⟩
    rw [hbb]
    rfl
  have hemp : ¬((viz_centers items).isEmpty = true) := by
    rw [List.isEmpty_iff]
    exact List.ne_nil_of_mem hcmema
  have hdef : cluster_by_xcenter items tol = colAssign XCCluster.members
      ((((viz_centers items).mergeSort fun p q => decide (p.2 ≤ q.2)).foldl
        (xc_step tol) []).mergeSort
          fun c d => decide (c.center ≤ d.center)) := by
    unfold cluster_by_xcenter
    dsimp only
    rw [if_neg hemp]
  have hperm : ((viz_centers items).mergeSort
      fun p q => decide (p.2 ≤ q.2)).Perm (viz_centers items) :=
    List.mergeSort_perm _ _
  have hsorted : ((viz_centers items).mergeSort
      fun p q => decide (p.2 ≤ q.2)).Pairwise fun p q => p.2 ≤ q.2 := by
    have h := @List.sorted_mergeSort (Nat × ℚ)
      (fun p q => decide (p.2 ≤ q.2))
      (by intro x y z hab hbc; simp at hab hbc ⊢; exact le_trans hab hbc)
      (by intro x y; simp; exact le_total x.2 y.2)
      (viz_centers items)
    exact h.imp (by intro x y hh; simpa using hh)
  have hsnd : (((viz_centers items).mergeSort
      fun p q => decide (p.2 ≤ q.2)).map Prod.snd).Pairwise (· ≤ ·) :=
    List.pairwise_map.mpr hsorted
  have hfstnd : (((viz_centers items).mergeSort
      fun p q => decide (p.2 ≤ q.2)).map Prod.fst).Nodup := by
    refine ((hperm.map Prod.fst).nodup_iff).mpr ?_
    exact (viz_centers_fst_sublist items).nodup hnd
  have hamem : (pa.1, x_center ba) ∈ ((viz_centers items).mergeSort
      fun p q => decide (p.2 ≤ q.2)) := hperm.mem_iff.mpr hcmema
  have hbmem : (pb.1, x_center bb) ∈ ((viz_centers items).mergeSort
      fun p q => decide (p.2 ≤ q.2)) := hperm.mem_iff.mpr hcmemb
  have hlt : x_center ba < x_center bb := by linarith
  rw [hdef]
  exact xc_endgame _ tol htol hsnd hfstnd hamem hbmem hlt

unseal Rat.sub Rat.add Rat.mul Rat.inv List.merge List.mergeSort in
/-- C8 (counterexample): the claim quantifies over every tolerance, but
for a negative tolerance both clusterers violate monotonicity: with
tol = -1 the gap hypothesis x(a) < x(b) - tol admits a pair with
x(a) > x(b), every point then opens its own cluster, and the fragment
with the larger coordinate lands in the strictly larger column. -/
theorem c8_clustering_monotonicity_counterexample :
    (vizGetBBox vizChunkHalf = some ⟨0, 0, 1, 0⟩ ∧
      vizGetBBox vizChunkZero = some ⟨0, 0, 0, 0⟩ ∧
      x_center ⟨0, 0, 1, 0⟩ < x_center ⟨0, 0, 0, 0⟩ - (-1) ∧
      ¬(col_of (cluster_by_xcenter
          [(0, vizChunkZero), (1, vizChunkHalf)] (-1)) 1 ≤
        col_of (cluster_by_xcenter
          [(0, vizChunkZero), (1, vizChunkHalf)] (-1)) 0)) ∧
    (x0ItemHalf.box.x0 < x0ItemZero.box.x0 - (-1) ∧
      ¬(col_of (_cluster_by_x0 [x0ItemZero, x0ItemHalf] (-1))
          x0ItemHalf.idx ≤
        col_of (_cluster_by_x0 [x0ItemZero, x0ItemHalf] (-1))
          x0ItemZero.idx)) := by
  refine ⟨⟨by decide, by decide, by decide, by decide⟩,
    by decide, by decide⟩

/-- C8 (amended): column clustering monotonicity holds for every
nonnegative tolerance.  For the x-center clusterer of the visualizer:
for any item list with distinct indices and any two items whose boxes
parse, x_center(a) < x_center(b) - tol implies column(a) ≤ column(b);
and likewise for the merger's x0-based clusterer with x0 in place of
x_center.  (For negative tolerances the property fails, see the
counterexample.) -/
theorem c8_clustering_monotonicity_amended :
    (∀ (items : List (Nat × Chunk)) (tol : ℚ), 0 ≤ tol →
      (items.map Prod.fst).Nodup →
      ∀ pa ∈ items, ∀ pb ∈ items, ∀ ba bb : BBox,
        vizGetBBox pa.2 = some ba → vizGetBBox pb.2 = some bb →
        x_center ba < x_center bb - tol →
        col_of (cluster_by_xcenter items tol) pa.1 ≤
          col_of (cluster_by_xcenter items tol) pb.1) ∧
    (∀ (items : List MergeItem) (tol : ℚ), 0 ≤ tol →
      (items.map MergeItem.idx).Nodup →
      ∀ a ∈ items, ∀ b ∈ items,
        a.box.x0 < b.box.x0 - tol →
        col_of (_cluster_by_x0 items tol) a.idx ≤
          col_of (_cluster_by_x0 items tol) b.idx) := by
  constructor
  · intro items tol htol hnd pa ha pb hb ba bb hba hbb hgap
    exact xcenter_mono items tol htol hnd ha hb hba hbb hgap
  · intro items tol htol hnd a ha b hb hgap
    exact x0_mono items tol htol hnd ha hb hgap

unseal Rat.sub Rat.add Rat.mul Rat.inv List.merge List.mergeSort in
/-- Witness for c8_clustering_monotonicity_amended at tol = 1/4 on two
concrete fragments whose centers are 1/2 apart: the zero-centered
fragment gets the smaller column in both clusterers. -/
theorem c8_clustering_monotonicity_amended_witness :
    ((0 : ℚ) ≤ 4 ∧
      ([(0, vizChunkZero), (1, vizChunkHalf)].map Prod.fst).Nodup ∧
      vizGetBBox vizChunkZero = some ⟨0, 0, 0, 0⟩ ∧
      vizGetBBox vizChunkHalf = some ⟨0, 0, 1, 0⟩ ∧
      x_center ⟨0, 0, 0, 0⟩ < x_center ⟨0, 0, 1, 0⟩ - mkRat 1 4 ∧
      ([x0ItemZero, x0ItemHalf].map MergeItem.idx).Nodup ∧
      x0ItemZero.box.x0 < x0ItemHalf.box.x0 - mkRat 1 4) ∧
    col_of (cluster_by_xcenter
        [(0, vizChunkZero), (1, vizChunkHalf)] (mkRat 1 4)) 0 ≤
      col_of (cluster_by_xcenter
        [(0, vizChunkZero), (1, vizChunkHalf)] (mkRat 1 4)) 1 ∧
    col_of (_cluster_by_x0 [x0ItemZero, x0ItemHalf] (mkRat 1 4))
        x0ItemZero.idx ≤
      col_of (_cluster_by_x0 [x0ItemZero, x0ItemHalf] (mkRat 1 4))
        x0ItemHalf.idx :=
  ⟨⟨by decide, by decide, by decide, by decide, by decide, by decide,
      by decide⟩,
    c8_clustering_monotonicity_amended.1
      [(0, vizChunkZero), (1, vizChunkHalf)] (mkRat 1 4) (by decide)
      (by decide) (0, vizChunkZero) (by decide) (1, vizChunkHalf)
      (by decide) ⟨0, 0, 0, 0⟩ ⟨0, 0, 1, 0⟩ (by decide) (by decide)
      (by decide),
    c8_clustering_monotonicity_amended.2 [x0ItemZero, x0ItemHalf]
      (mkRat 1 4) (by decide) (by decide) x0ItemZero (by decide)
      x0ItemHalf (by decide) (by decide)⟩

theorem idStr_mkStitched (c : Chunk) (t : String) (b : BBox)
    (ids : List String) (k : Int) : idStr (mkStitched c t b ids k) = idStr c :=
  rfl

theorem stitch_absorb_rest_mem (mg mo : ℚ) :
    ∀ (l : List MergeItem) (t : String) (b : BBox) (ids : List String),
      ∀ x ∈ (stitch_absorb mg mo l t b ids).2.2.2, x ∈ l := by
  intro l
  induction l with
  | nil => intro t b ids x hx; cases hx
  | cons n rest ih =>
    intro t b ids x hx
    unfold stitch_absorb at hx
    by_cases h1 : looks_like_bullet (stitch_text n.ch)
    · rw [if_pos h1] at hx
      exact hx
    · rw [if_neg h1] at hx
      by_cases h2 : (decide (b.vertical_gap_to n.box > mg) ||
          decide (b.horizontal_overlap_ratio n.box < mo)) = true
      · rw [if_pos h2] at hx
        exact hx
      · rw [if_neg h2] at hx
        exact List.mem_cons_of_mem n (ih _ _ _ x hx)

theorem stitch_run_ids (mg mo : ℚ) (k : Int) :
    ∀ (fuel : Nat) (l : List MergeItem) (c : Chunk),
      c ∈ stitch_run mg mo k fuel l → ∃ it ∈ l, idStr c = idStr it.ch := by
  intro fuel
  induction fuel with
  | zero => intro l c hc; cases hc
  | succ f ih =>
    intro l c hc
    cases l with
    | nil => cases hc
    | cons it rest =>
      unfold stitch_run at hc
      by_cases hb : looks_like_bullet (stitch_text it.ch)
      · rw [if_neg (by rw [hb]; simp)] at hc
        rcases hr : stitch_absorb mg mo rest (stitch_text it.ch) it.box
            [idStr it.ch] with ⟨mt, mb, ids, rest2⟩
        rw [hr] at hc
        rcases List.mem_cons.mp hc with rfl | hc2
        · exact ⟨it, List.mem_cons_self it rest, idStr_mkStitched _ _ _ _ _⟩
        · rcases ih rest2 c hc2 with ⟨it2, hit2, heq⟩
          have hit3 : it2 ∈ rest := by
            have := stitch_absorb_rest_mem mg mo rest (stitch_text it.ch)
              it.box [idStr it.ch] it2
            rw [hr] at this
            exact this hit2
          exact ⟨it2, List.mem_cons_of_mem it hit3, heq⟩
      · rw [if_pos (by rw [Bool.eq_false_iff.mpr hb]; simp)] at hc
        rcases List.mem_cons.mp hc with rfl | hc2
        · exact ⟨it, List.mem_cons_self it rest, rfl⟩
        · rcases ih rest c hc2 with ⟨it2, hit2, heq⟩
          exact ⟨it2, List.mem_cons_of_mem it hit2, heq⟩

theorem stitch_page_ids (p : Int) (pitems : List MergeItem) (mg mo xt : ℚ)
    (c : Chunk) (hc : c ∈ stitch_page p pitems mg mo xt) :
    ∃ it ∈ pitems, idStr c = idStr it.ch := by
  unfold stitch_page at hc
  dsimp only at hc
  rcases List.mem_map.mp hc with ⟨c2, hc2, hceq⟩
  rcases List.mem_flatMap.mp hc2 with ⟨key, hkey, hrun⟩
  rcases stitch_run_ids mg mo key _ _ c2 hrun with ⟨it, hit, heq⟩
  have hit2 : it ∈ pitems := by
    have hperm := List.mergeSort_perm (pitems.filter fun x =>
      stitch_col (decide (2 ≤ (pitems.filterMap fun x =>
        _get_visual_column_index x.ch).dedup.length))
        (if decide (2 ≤ (pitems.filterMap fun x =>
            _get_visual_column_index x.ch).dedup.length) then []
          else assign_fallback_columns_by_x0 pitems xt) x == key) stitch_le
    exact List.mem_of_mem_filter (hperm.mem_iff.mp hit)
  refine ⟨it, hit2, ?_⟩
  rw [← hceq]
  exact heq

/-- C10: the stitcher silently drops bbox-less fragments.  For every
collection with distinct ids, every processed-page chunk whose bbox does
not parse (the main loop skips it when building the geometry items, with
a comment claiming pass-through) has its id absent from the whole
output: it is neither stitched into a unit nor emitted standalone. -/
theorem c10_stitcher_drops_boxless (chunks : List Chunk)
    (only_page : Option Int) (mg mo xt : ℚ)
    (hids : (chunks.map idStr).Nodup) {c : Chunk} (hc : c ∈ chunks)
    (hproc : match only_page with
      | some t => get_page_num c = t
      | none => True)
    (hbox : extract_bbox c = none) :
    idStr c ∉ (fix_split_notes_main chunks only_page mg mo xt).map idStr := by
  intro hmem
  rcases List.mem_map.mp hmem with ⟨d, hd, hdeq⟩
  have hinj : ∀ d' ∈ chunks, idStr d' = idStr c → d' = c := by
    intro d' hd' heq
    exact List.inj_on_of_nodup_map hids hd' hc heq
  unfold fix_split_notes_main at hd
  dsimp only at hd
  have hstitchcase : ∀ (p : Int) (cond : Nat × Chunk → Bool),
      d ∈ stitch_page p ((chunks.enum.filterMap fun ic =>
        if cond ic = true then
          (extract_bbox ic.2).map fun b => (⟨ic.1, ic.2, b⟩ : MergeItem)
        else none).filter fun it => get_page_num it.ch == p) mg mo xt →
      False := by
    intro p cond hdp
    rcases stitch_page_ids p _ mg mo xt d hdp with ⟨it, hit, hiteq⟩
    have hit2 := List.mem_of_mem_filter hit
    rcases List.mem_filterMap.mp hit2 with ⟨ic, hicmem, hiceq⟩
    by_cases hcnd : cond ic = true
    · rw [if_pos hcnd] at hiceq
      rcases Option.map_eq_some'.mp hiceq with ⟨b, hbx, hiteq2⟩
      have hch : it.ch = ic.2 := by rw [← hiteq2]
      have hchmem : ic.2 ∈ chunks := mem_enum_snd_mem hicmem
      have heq2 : idStr ic.2 = idStr c := by
        rw [← hch, ← hiteq, hdeq]
      have heqc : ic.2 = c := hinj _ hchmem heq2
      rw [heqc] at hbx
      rw [hbox] at hbx
      cases hbx
    · rw [if_neg hcnd] at hiceq
      cases hiceq
  cases honly : only_page with
  | none =>
    rw [honly] at hd
    rw [List.nil_append] at hd
    rcases List.mem_flatMap.mp hd with ⟨p, hp, hdp⟩
    exact hstitchcase p _ hdp
  | some t =>
    have hpage : get_page_num c = t := by
      rw [honly] at hproc
      exact hproc
    rw [honly] at hd
    rcases List.mem_append.mp hd with hpass | hstitch
    · have hdc : d ∈ chunks := List.mem_of_mem_filter hpass
      have hdcnd := List.of_mem_filter hpass
      have heqc : d = c := hinj d hdc hdeq
      rw [heqc] at hdcnd
      rw [hpage] at hdcnd
      simp at hdcnd
    · rcases List.mem_flatMap.mp hstitch with ⟨p, hp, hdp⟩
      exact hstitchcase p _ hdp

unseal Rat.sub Rat.add Rat.mul Rat.inv List.merge List.mergeSort in
/-- Witness for c10_stitcher_drops_boxless on a concrete two-chunk
collection processed without a page restriction: the bbox-less chunk's
id is gone from the output, which is strictly shorter than the input
even though nothing was stitched. -/
theorem c10_stitcher_drops_boxless_witness :
    (([boxlessChunk, textLineA].map idStr).Nodup ∧
      boxlessChunk ∈ [boxlessChunk, textLineA] ∧
      extract_bbox boxlessChunk = none) ∧
    idStr boxlessChunk ∉ ((fix_split_notes_main [boxlessChunk, textLineA]
        none 28 (mkRat 60 100) 100).map idStr) ∧
    (fix_split_notes_main [boxlessChunk, textLineA] none 28
        (mkRat 60 100) 100).length < [boxlessChunk, textLineA].length :=
  ⟨⟨by decide, by decide, by decide⟩,
    c10_stitcher_drops_boxless [boxlessChunk, textLineA] none 28
      (mkRat 60 100) 100 (by decide) (by decide) trivial (by decide),
    by decide⟩
